import Mathlib

/- Formal model of the slot-resolution and fallback-query engine of app.py
   (University-ChatBot).  Python strings are modelled as lists of characters,
   Python floats as rationals, Python integers as Int; a Python value that
   may be None is an Option.  The dataset (merit_records, as loaded by
   grab_merit_data) is a parameter of every catalog-dependent definition. -/

abbrev Str := List Char

/-- Python str.lower (ASCII-adequate for the inputs of this code base). -/
def lowerS (l : Str) : Str := l.map Char.toLower

/-- The whitespace class used by str.strip and the regex class backslash-s. -/
def isWs (c : Char) : Bool := c == ' ' || c == '\t' || c == '\n' || c == '\r'

/-- Python str.strip: remove leading and trailing whitespace. -/
def stripS (l : Str) : Str :=
  ((l.dropWhile isWs).reverse.dropWhile isWs).reverse

/-- Prefix test on character lists. -/
def isPrefixL : Str → Str → Bool
  | [], _ => true
  | _ :: _, [] => false
  | a :: as, b :: bs => a == b && isPrefixL as bs

/-- Python substring test (x in y). -/
def isInfixL (n : Str) : Str → Bool
  | [] => isPrefixL n []
  | c :: t => isPrefixL n (c :: t) || isInfixL n t

/-- Python truthiness of an optional string (None and the empty string are falsy). -/
def pyT : Option Str → Bool
  | some (_ :: _) => true
  | _ => false

/-- Python truthiness of an optional int (None and 0 are falsy). -/
def pyTI : Option Int → Bool
  | some n => n != 0
  | none => false

/-- Python x or y for optional strings. -/
def pyOr (a b : Option Str) : Option Str := if pyT a then a else b

/-- Python fm or s for an optional-string value with a string fallback. -/
def pyOrStr (a : Option Str) (b : Str) : Str :=
  match a with
  | some (c :: cs) => c :: cs
  | _ => b

/-- Python dict lookup on a literal table (keys are pairwise distinct). -/
def alookup (tbl : List (Str × Str)) (k : Str) : Option Str :=
  (tbl.find? (fun p => p.1 == k)).map (fun p => p.2)

/-- Deduplicate a list of strings case-insensitively, keeping first
    occurrences in order (the seen-set loop of norm_campus and
    cheap_extract). -/
def dedupLowerAux : List Str → List Str → List Str
  | _, [] => []
  | seen, c :: rest =>
    if lowerS c ∈ seen then dedupLowerAux seen rest
    else c :: dedupLowerAux (lowerS c :: seen) rest

def dedupLower (l : List Str) : List Str := dedupLowerAux [] l

/-- Python ", ".join. -/
def joinCommaSpace (l : List Str) : Str := List.intercalate ( ", ".toList) l

/-- dept_aliases from app.py, in source order. -/
def dept_aliases : List (Str × Str) := [
  ( "cs".toList, "Computer Science".toList),
  ( "c.s".toList, "Computer Science".toList),
  ( "comp science".toList, "Computer Science".toList),
  ( "computer science".toList, "Computer Science".toList),
  ( "computerscience".toList, "Computer Science".toList),
  ( "se".toList, "Software Engineering".toList),
  ( "software engineering".toList, "Software Engineering".toList),
  ( "cyber".toList, "Cyber Security".toList),
  ( "cyber security".toList, "Cyber Security".toList),
  ( "computing".toList, "Computing".toList),
  ( "ee".toList, "Electrical".toList),
  ( "electrical".toList, "Electrical".toList),
  ( "electrical engineering".toList, "Electrical".toList),
  ( "me".toList, "Mechanical".toList),
  ( "mechanical".toList, "Mechanical".toList),
  ( "mechanical engineering".toList, "Mechanical".toList),
  ( "physics".toList, "Physics".toList),
  ( "applied physics".toList, "Applied Physics".toList),
  ( "math".toList, "Mathematics".toList)]

/-- prog_aliases from app.py, in source order. -/
def prog_aliases : List (Str × Str) := [
  ( "bs".toList, "BS".toList),
  ( "b.s".toList, "BS".toList),
  ( "bsc".toList, "BS".toList),
  ( "b.sc".toList, "BS".toList),
  ( "bachelors".toList, "BS".toList),
  ( "bachelor".toList, "BS".toList),
  ( "undergrad".toList, "BS".toList),
  ( "ug".toList, "BS".toList),
  ( "ms".toList, "MS".toList),
  ( "m.s".toList, "MS".toList),
  ( "msc".toList, "MS".toList),
  ( "m.sc".toList, "MS".toList),
  ( "mphil".toList, "MPhil".toList),
  ( "m.phil".toList, "MPhil".toList),
  ( "postgrad".toList, "MS".toList),
  ( "pg".toList, "MS".toList),
  ( "phd".toList, "PhD".toList),
  ( "ph.d".toList, "PhD".toList),
  ( "doctorate".toList, "PhD".toList)]

/-- campus_aliases from app.py, in source order. -/
def campus_aliases : List (Str × Str) := [
  ( "isb".toList, "Islamabad".toList),
  ( "islamabad".toList, "Islamabad".toList),
  ( "rwp".toList, "Rawalpindi".toList),
  ( "rawalpindi".toList, "Rawalpindi".toList),
  ( "lhr".toList, "Lahore".toList),
  ( "lahore".toList, "Lahore".toList),
  ( "khi".toList, "Karachi".toList),
  ( "karachi".toList, "Karachi".toList),
  ( "kt".toList, "Karachi".toList),
  ( "pesh".toList, "Peshawar".toList),
  ( "peshawar".toList, "Peshawar".toList),
  ( "qta".toList, "Quetta".toList),
  ( "quetta".toList, "Quetta".toList),
  ( "abbott".toList, "Abbottabad".toList),
  ( "abbottabad".toList, "Abbottabad".toList),
  ( "skt".toList, "Sialkot".toList),
  ( "sialkot".toList, "Sialkot".toList),
  ( "mul".toList, "Multan".toList),
  ( "multan".toList, "Multan".toList),
  ( "faisalabad".toList, "Faisalabad".toList),
  ( "fsd".toList, "Faisalabad".toList),
  ( "suk".toList, "Sukkur".toList),
  ( "sukkur".toList, "Sukkur".toList)]

/-- One row of merit_records; grab_merit_data strips every text field on
    load, so the fields here are the post-load values. -/
structure MeritRow where
  university : Str
  campus : Str
  department : Str
  program : Str
  year : Int
  minimumMerit : ℚ
  maximumMerit : ℚ
deriving DecidableEq

/-- Python string comparison: lexicographic on code points. -/
def strLeB : Str → Str → Bool
  | [], _ => true
  | _ :: _, [] => false
  | a :: as, b :: bs => if a = b then strLeB as bs else decide (a.val < b.val)

/-- Python sorted for a collection of strings. -/
def sortStrs (l : List Str) : List Str :=
  List.insertionSort (fun a b => strLeB a b = true) l

/-- UNIS cached vocabulary: sorted set of the non-empty university values. -/
def UNIS (R : List MeritRow) : List Str :=
  sortStrs (((R.map (fun r => r.university)).filter (fun u => !u.isEmpty)).dedup)

/-- DEPTS cached vocabulary. -/
def DEPTS (R : List MeritRow) : List Str :=
  sortStrs (((R.map (fun r => r.department)).filter (fun u => !u.isEmpty)).dedup)

/-- PROGS cached vocabulary. -/
def PROGS (R : List MeritRow) : List Str :=
  sortStrs (((R.map (fun r => r.program)).filter (fun u => !u.isEmpty)).dedup)

/-- CAMPS cached vocabulary. -/
def CAMPS (R : List MeritRow) : List Str :=
  sortStrs (((R.map (fun r => r.campus)).filter (fun u => !u.isEmpty)).dedup)

/-- Length of the common prefix of two character lists. -/
def cpl : Str → Str → Nat
  | a :: as, b :: bs => if a = b then cpl as bs + 1 else 0
  | _, _ => 0

/-- difflib find_longest_match with no junk: the longest common substring,
    ties resolved to the earliest start in a, then the earliest start in b.
    Returns (start in a, start in b, length). -/
def bestK (a b : Str) : Nat × Nat × Nat :=
  (List.range a.length).foldl (fun best i =>
    (List.range b.length).foldl (fun best j =>
      if best.2.2 < cpl (a.drop i) (b.drop j) then (i, j, cpl (a.drop i) (b.drop j))
      else best) best) (0, 0, 0)

/-- Total size of the difflib matching blocks (recursion on both sides of the
    longest match), indexed by fuel; fuel larger than the length of a makes
    it exact. -/
def mtAux : Nat → Str → Str → Nat
  | 0, _, _ => 0
  | fuel + 1, a, b =>
    if (bestK a b).2.2 = 0 then 0
    else (bestK a b).2.2 +
      mtAux fuel (a.take (bestK a b).1) (b.take (bestK a b).2.1) +
      mtAux fuel (a.drop ((bestK a b).1 + (bestK a b).2.2))
        (b.drop ((bestK a b).2.1 + (bestK a b).2.2))

def matchTotal (a b : Str) : Nat := mtAux (a.length + 1) a b

/-- ratio from app.py: difflib SequenceMatcher ratio over the lowercased
    arguments, 2 M over the sum of the lengths (mkRat n d is the rational
    n over d). -/
def ratio (a b : Str) : ℚ :=
  if (lowerS a).length + (lowerS b).length = 0 then 1
  else mkRat (2 * (matchTotal (lowerS a) (lowerS b) : Int))
    ((lowerS a).length + (lowerS b).length)

/-- One step of the fuzzy_pick loop: keep the best ratio seen so far with
    strict improvement, so the first maximal option wins. -/
def fuzzyStep (cand : Str) (acc : Option Str × ℚ) (o : Str) : Option Str × ℚ :=
  if acc.2 < ratio cand o then (some o, ratio cand o) else acc

/-- fuzzy_pick from app.py: best ratio over the options, returned only when
    the best ratio reaches the cutoff. -/
def fuzzy_pick (candidate : Str) (options : List Str) (cutoff : ℚ) : Option Str :=
  if candidate.isEmpty || options.isEmpty then none
  else
    let best := options.foldl (fuzzyStep candidate) ((none : Option Str), (0 : ℚ))
    if cutoff ≤ best.2 then best.1 else none

/-- norm_dept from app.py: alias table, exact case-insensitive vocabulary
    pass, fuzzy at 0.83, else the stripped input. -/
def norm_dept (R : List MeritRow) (txt : Str) : Option Str :=
  if txt.isEmpty then none
  else
    match alookup dept_aliases (lowerS (stripS txt)) with
    | some v => some v
    | none =>
      match (DEPTS R).find? (fun d => lowerS d == lowerS (stripS txt)) with
      | some d => some d
      | none => some (pyOrStr (fuzzy_pick txt (DEPTS R) (mkRat 83 100)) (stripS txt))

/-- The alias key used by norm_prog: strip, lowercase, remove dashes,
    underscores and spaces. -/
def progKey (txt : Str) : Str :=
  (lowerS (stripS txt)).filter (fun c => !(c == '-' || c == '_' || c == ' '))

/-- norm_prog from app.py: alias table then fuzzy at 0.90 (there is no exact
    vocabulary pass here), else the stripped input. -/
def norm_prog (R : List MeritRow) (txt : Str) : Option Str :=
  if txt.isEmpty then none
  else
    match alookup prog_aliases (progKey txt) with
    | some v => some v
    | none => some (pyOrStr (fuzzy_pick txt (PROGS R) (mkRat 90 100)) (stripS txt))

/-- norm_uni from app.py: exact case-insensitive vocabulary pass then fuzzy
    at 0.78, else the stripped input. -/
def norm_uni (R : List MeritRow) (txt : Str) : Option Str :=
  if txt.isEmpty then none
  else
    match (UNIS R).find? (fun u => lowerS u == lowerS (stripS txt)) with
    | some u => some u
    | none => some (pyOrStr (fuzzy_pick txt (UNIS R) (mkRat 78 100)) (stripS txt))

/-- Case-insensitive test for the three-letter word and. -/
def check3 (x y z : Char) : Bool :=
  x.toLower == 'a' && y.toLower == 'n' && z.toLower == 'd'

/-- One match of the campus separator regex at the head position: optional
    whitespace, then a comma, the letters of and (case-insensitive, with no
    word boundary, exactly as in the source pattern), or an ampersand, then
    optional whitespace.  Returns the remainder after the match. -/
def sepMatch (s : Str) : Option Str :=
  match s.dropWhile isWs with
  | [] => none
  | c :: r =>
    if c == ',' then some (r.dropWhile isWs)
    else if (match r with
             | y :: z :: _ => check3 c y z
             | _ => false) then
      some ((r.drop 2).dropWhile isWs)
    else if c == '&' then some (r.dropWhile isWs)
    else none

/-- re.split of the separator pattern, scanning left to right.  Fuel at
    least the length of the input makes it exact. -/
def splitSepAux : Nat → Str → Str → List Str
  | 0, _, acc => [acc.reverse]
  | _ + 1, [], acc => [acc.reverse]
  | fuel + 1, c :: rest, acc =>
    match sepMatch (c :: rest) with
    | some r => acc.reverse :: splitSepAux fuel r []
    | none => splitSepAux fuel rest (c :: acc)

def splitSep (s : Str) : List Str := splitSepAux (s.length + 1) s []

/-- The body of the norm_campus per-part loop for a stripped non-empty part:
    alias table, then fuzzy at 0.80, else the part itself. -/
def normCampusPart (R : List MeritRow) (p : Str) : Str :=
  match alookup campus_aliases (lowerS p) with
  | some v => v
  | none => pyOrStr (fuzzy_pick p (CAMPS R) (mkRat 80 100)) p

/-- norm_campus from app.py: split on comma, and, ampersand; strip and
    normalize each non-empty part; deduplicate case-insensitively keeping
    first occurrences; rejoin with a comma and space. -/
def norm_campus (R : List MeritRow) (txt : Str) : Str :=
  if txt.isEmpty then []
  else
    let normalized := (splitSep txt).filterMap (fun p =>
      let ps := stripS p
      if ps.isEmpty then none else some (normCampusPart R ps))
    joinCommaSpace (dedupLower normalized)

/-- Split on a comma followed by optional whitespace (re.split with a comma
    and backslash-s star), used by campus_like. -/
def splitCommaWsAux : Nat → Str → Str → List Str
  | 0, _, acc => [acc.reverse]
  | _ + 1, [], acc => [acc.reverse]
  | fuel + 1, c :: rest, acc =>
    if c == ',' then acc.reverse :: splitCommaWsAux fuel (rest.dropWhile isWs) []
    else splitCommaWsAux fuel rest (c :: acc)

def splitCommaWs (s : Str) : List Str := splitCommaWsAux (s.length + 1) s []

/-- campus_like from app.py: an empty filter matches anything; otherwise some
    comma-separated filter entry must equal or be a substring of the record
    campus (both lowercased). -/
def campus_like (c1 c2 : Str) : Bool :=
  if c2.isEmpty then true
  else
    let c1l := lowerS c1
    let parts := (splitCommaWs c2).filterMap (fun x =>
      let xs := stripS x
      if xs.isEmpty then none else some (lowerS xs))
    parts.any (fun part => part == c1l || isInfixL part c1l)

/-- lookup_rows from app.py. -/
def lookup_rows (R : List MeritRow) (uni camp dept prog : Str) (yr : Int) :
    List MeritRow :=
  R.filter (fun r =>
    lowerS r.university == lowerS uni &&
    campus_like r.campus camp &&
    lowerS r.department == lowerS dept &&
    lowerS r.program == lowerS prog &&
    r.year == yr)

/-- available_years from app.py: the sorted set of years carrying data for
    the given university, department, program and optional campus filter. -/
def available_years (R : List MeritRow) (uni dept prog : Str) (camp : Option Str) :
    List Int :=
  List.insertionSort (fun a b => a ≤ b)
    (((R.filter (fun r =>
        lowerS r.university == lowerS uni &&
        lowerS r.department == lowerS dept &&
        lowerS r.program == lowerS prog &&
        (match camp with
         | none => true
         | some c => campus_like r.campus c))).map (fun r => r.year)).dedup)

/-- closest_year from app.py: Python min with key absolute distance, which
    keeps the first (hence smallest, the list being sorted ascending) year
    attaining the minimum. -/
def closest_year (R : List MeritRow) (uni dept prog : Str) (yr : Int)
    (camp : Option Str) : Option Int :=
  match available_years R uni dept prog camp with
  | [] => none
  | y :: ys => some (ys.foldl (fun b z => if |z - yr| < |b - yr| then z else b) y)

/-- departments_at_uni from app.py. -/
def departments_at_uni (R : List MeritRow) (uni : Str) : List Str :=
  sortStrs (((R.filter (fun r => lowerS r.university == lowerS uni)).map
    (fun r => r.department)).dedup)

/-- programs_for from app.py. -/
def programs_for (R : List MeritRow) (uni dept : Str) : List Str :=
  sortStrs (((R.filter (fun r =>
    lowerS r.university == lowerS uni && lowerS r.department == lowerS dept)).map
    (fun r => r.program)).dedup)

/-- adjust_dept_for_uni from app.py: remap Computer Science, Software
    Engineering or Cyber Security to the umbrella Computing when the
    university reports Computing but not Computer Science. -/
def adjust_dept_for_uni (R : List MeritRow) (uni dept : Str) : Str :=
  if uni.isEmpty || dept.isEmpty then dept
  else
    let uniDeps := (departments_at_uni R uni).map lowerS
    if lowerS dept == "computer science".toList ||
       lowerS dept == "software engineering".toList ||
       lowerS dept == "cyber security".toList then
      if !(uniDeps.contains ( "computer science".toList)) &&
         uniDeps.contains ( "computing".toList) then "Computing".toList
      else dept
    else dept

/-- The regex word class: alphanumerics and the underscore. -/
def isWordChar (c : Char) : Bool := c.isAlphanum || c == '_'

/-- Word-boundary condition of the regex anchor between an optional previous
    and an optional next character: exactly one side is a word character. -/
def bdry (prev next : Option Char) : Bool :=
  (match prev with | some c => isWordChar c | none => false) !=
  (match next with | some c => isWordChar c | none => false)

/-- Match a literal pattern (with the dot as any-but-newline wildcard when
    dotWild, mirroring the unescaped alias keys) against the head of s;
    returns the last consumed character and the rest. -/
def matchPat (dotWild : Bool) : Str → Char → Str → Option (Char × Str)
  | [], last, s => some (last, s)
  | _ :: _, _, [] => none
  | p :: ps, _, c :: cs =>
    if (dotWild && p == '.' && c != '\n') || p == c then matchPat dotWild ps c cs
    else none

/-- re.search of a pattern wrapped in word boundaries, scanning left to
    right (the alias whole-word passes of cheap_extract). -/
def wsAux (dotWild : Bool) (pat : Str) : Option Char → Str → Bool
  | _, [] => false
  | prev, c :: rest =>
    (match matchPat dotWild pat ' ' (c :: rest) with
     | some (last, r) => bdry prev (some c) && bdry (some last) r.head?
     | none => false) ||
    wsAux dotWild pat (some c) rest

def wordSearch (dotWild : Bool) (pat msg : Str) : Bool := wsAux dotWild pat none msg

/-- The token class of the findall patterns: alphanumerics and the
    apostrophe (code point 39). -/
def isTokChar (c : Char) : Bool := c.isAlphanum || c.val == 39

/-- re.findall of token runs, keeping runs of length at least minLen. -/
def tokensAux : Nat → Str → List Str
  | 0, _ => []
  | fuel + 1, l =>
    let l1 := l.dropWhile (fun c => !isTokChar c)
    match l1 with
    | [] => []
    | _ :: _ => l1.takeWhile isTokChar :: tokensAux fuel (l1.dropWhile isTokChar)

def tokensMin (minLen : Nat) (l : Str) : List Str :=
  (tokensAux (l.length + 1) l).filter (fun t => minLen ≤ t.length)

/-- Search for the phrase last year (word-bounded, one or more whitespace
    characters between the words). -/
def lastYearSearchAux : Option Char → Str → Bool
  | _, [] => false
  | prev, c :: rest =>
    (match matchPat false ( "last".toList) ' ' (c :: rest) with
     | some (_, r) =>
       bdry prev (some c) &&
       (match r with
        | c2 :: _ =>
          isWs c2 &&
          (match matchPat false ( "year".toList) ' ' (r.dropWhile isWs) with
           | some (last2, r3) => bdry (some last2) r3.head?
           | none => false)
        | [] => false)
     | none => false) ||
    lastYearSearchAux (some c) rest

def lastYearSearch (msg : Str) : Bool := lastYearSearchAux none msg

def digitVal (c : Char) : Int := (c.toNat : Int) - 48

/-- The regex digit class: code points 48 through 57. -/
def isDigitC (c : Char) : Bool := 48 ≤ c.toNat && c.toNat ≤ 57

/-- Search for the first word-bounded four-digit year 19xx or 20xx. -/
def yearScanAux : Option Char → Str → Option Int
  | _, [] => none
  | prev, c :: rest =>
    match rest with
    | b :: d1 :: d2 :: r =>
      if bdry prev (some c) &&
         ((c == '2' && b == '0') || (c == '1' && b == '9')) &&
         isDigitC d1 && isDigitC d2 && bdry (some d2) r.head? then
        some (1000 * digitVal c + 100 * digitVal b + 10 * digitVal d1 + digitVal d2)
      else yearScanAux (some c) rest
    | _ => yearScanAux (some c) rest

/-- detect_year_from_text from app.py; nowY stands for datetime.now().year.
    The last-year phrase is checked before the explicit four-digit year. -/
def detect_year_from_text (nowY : Int) (msg : Str) : Int :=
  let msgL := lowerS msg
  if lastYearSearch msgL then nowY - 1
  else
    match yearScanAux none msgL with
    | some y => y
    | none => nowY

/-- The optional trailing s of the policy alternatives followed by the
    closing word boundary (greedy with the regex backtracking collapsed:
    when an s follows, the no-consume branch always fails the boundary). -/
def optS (lastC : Char) (r : Str) : Bool :=
  match r with
  | 's' :: r2 => bdry (some 's') r2.head?
  | _ => bdry (some lastC) r.head?

/-- Match one literal policy phrase at the current position. -/
def tryPhrase (p : Str) (withS : Bool) (prev : Option Char) (s : Str) : Bool :=
  match matchPat false p ' ' s with
  | some (lastC, r) =>
    bdry prev s.head? && (if withS then optS lastC r else bdry (some lastC) r.head?)
  | none => false

/-- Match merit, optional whitespace, list, optional s at the current
    position. -/
def tryMeritList (prev : Option Char) (s : Str) : Bool :=
  match matchPat false ( "merit".toList) ' ' s with
  | some (_, r) =>
    bdry prev s.head? &&
    (match matchPat false ( "list".toList) ' ' (r.dropWhile isWs) with
     | some (lastC, r2) => optS lastC r2
     | none => false)
  | none => false

/-- The policy alternation of is_policy_question. -/
def policyAlt (prev : Option Char) (s : Str) : Bool :=
  tryPhrase ( "vacant seat".toList) true prev s ||
  tryPhrase ( "vacancies".toList) false prev s ||
  tryMeritList prev s ||
  tryPhrase ( "policy".toList) false prev s ||
  tryPhrase ( "how many list".toList) true prev s

def policyScan : Option Char → Str → Bool
  | _, [] => false
  | prev, c :: rest => policyAlt prev (c :: rest) || policyScan (some c) rest

/-- is_policy_question from app.py. -/
def is_policy_question (msg : Str) : Bool := policyScan none (lowerS msg)

/-- The program alias whole-word pass of cheap_extract. -/
def extract_prog_alias (msgL : Str) : Option Str :=
  prog_aliases.findSome? (fun kv =>
    if wordSearch true kv.1 msgL then some kv.2 else none)

/-- The program vocabulary substring pass of cheap_extract. -/
def extract_prog_sub (R : List MeritRow) (msgL : Str) : Option Str :=
  (PROGS R).find? (fun p => isInfixL (lowerS p) msgL)

/-- The program section of cheap_extract: the alias whole-word pass, the
    vocabulary substring pass, then the BS default (no fuzzy pass here,
    unlike the university and department sections). -/
def extract_prog (R : List MeritRow) (msgL : Str) : Str :=
  match extract_prog_alias msgL with
  | some p => p
  | none =>
    match extract_prog_sub R msgL with
    | some p => p
    | none => "BS".toList

/-- The tuple returned by cheap_extract. -/
structure CheapOut where
  uni : Option Str
  camp : Option Str
  dept : Option Str
  prog : Str
  year : Int
deriving DecidableEq

/-- cheap_extract from app.py.  The program slot has only the alias
    whole-word pass and the vocabulary substring pass before the BS default;
    the dead mc split of the source (its result is unused) is omitted. -/
def cheap_extract (R : List MeritRow) (nowY : Int) (msg : Str) : CheapOut :=
  let msgL := lowerS msg
  let uniSub := (UNIS R).find? (fun u => isInfixL (lowerS u) msgL)
  let uniFound :=
    match uniSub with
    | some u => some u
    | none =>
      (tokensMin 3 msgL).findSome? (fun tk =>
        match fuzzy_pick tk (UNIS R) (mkRat 80 100) with
        | some (c :: cs) => some (c :: cs)
        | _ => none)
  let deptAlias := dept_aliases.findSome? (fun kv =>
    if wordSearch true kv.1 msgL then some kv.2 else none)
  let deptSub :=
    match deptAlias with
    | some d => some d
    | none => (DEPTS R).find? (fun d => isInfixL (lowerS d) msgL)
  let deptFound :=
    match deptSub with
    | some d => some d
    | none =>
      (tokensMin 2 msgL).findSome? (fun tk =>
        match fuzzy_pick tk (DEPTS R) (mkRat 83 100) with
        | some (c :: cs) => some (c :: cs)
        | _ => none)
  let progFound := extract_prog R msgL
  let campsA := campus_aliases.foldl (fun acc kv =>
    if wordSearch false kv.1 msgL then acc ++ [kv.2] else acc) []
  let campsB := (CAMPS R).foldl (fun acc c =>
    if isInfixL (lowerS c) msgL then acc ++ [c] else acc) campsA
  let campFound :=
    match campsB with
    | [] => none
    | _ :: _ => some (joinCommaSpace (dedupLower campsB))
  { uni := uniFound, camp := campFound, dept := deptFound, prog := progFound,
    year := detect_year_from_text nowY msg }

/-- A JSON field of the hint object: absent key, null value, or a string. -/
inductive JField where
  | absent
  | jnull
  | jstr (s : Str)
deriving DecidableEq

/-- The year field of the hint object: absent, null, an integer, or a value
    on which int() raises. -/
inductive JYear where
  | absent
  | jnull
  | jint (n : Int)
  | jbad
deriving DecidableEq

/-- The JSON object parsed out of the hint provider reply (a missing or
    unparsable reply is modelled as no hint at all). -/
structure Hint where
  university : JField
  campus : JField
  department : JField
  program : JField
  year : JYear
deriving DecidableEq

/-- The five slot variables of chat before normalization. -/
structure RawSlots where
  uni : Option Str
  camp : Option Str
  dept : Option Str
  prog : Option Str
  yr : Option Int
deriving DecidableEq

/-- Steps 2 and 3 of chat: read the optional hint (info.get with its literal
    defaults: absent campus reads as the empty string, absent program as BS,
    absent year as the detected year; int() raising on the year keeps the
    other assignments and leaves the year unset), then run cheap_extract
    only when university, department, program or year is still falsy,
    keeping per field the truthy value already present. -/
def hint_slots (nowY : Int) (msg : Str) : Option Hint → RawSlots
  | none => { uni := none, camp := none, dept := none, prog := none, yr := none }
  | some h =>
    { uni := match h.university with | .jstr s => some s | _ => none,
      camp := match h.campus with
        | .absent => some [] | .jnull => none | .jstr s => some s,
      dept := match h.department with | .jstr s => some s | _ => none,
      prog := match h.program with
        | .absent => some ( "BS".toList) | .jnull => none | .jstr s => some s,
      yr := match h.year with
        | .absent => some (detect_year_from_text nowY msg)
        | .jint n => some n
        | _ => none }

/-- Step 3 of chat on top of the hint reading: run cheap_extract only when
    university, department, program or year is still falsy, keeping per
    field the truthy value already present. -/
def merged_slots (R : List MeritRow) (nowY : Int) (hint : Option Hint)
    (msg : Str) : RawSlots :=
  let fromHint : RawSlots := hint_slots nowY msg hint
  if !(pyT fromHint.uni && pyT fromHint.dept && pyT fromHint.prog &&
       pyTI fromHint.yr) then
    let f := cheap_extract R nowY msg
    { uni := pyOr fromHint.uni f.uni,
      camp := pyOr fromHint.camp f.camp,
      dept := pyOr fromHint.dept f.dept,
      prog := pyOr fromHint.prog (some f.prog),
      yr := if pyTI fromHint.yr then fromHint.yr else some f.year }
  else fromHint

/-- The slot variables of chat after step 4. -/
structure NormSlots where
  uni : Option Str
  dept : Option Str
  prog : Option Str
  camp : Str
  yr : Option Int
deriving DecidableEq

/-- Step 4 of chat plus the umbrella-department adjustment. -/
def normed_slots (R : List MeritRow) (s : RawSlots) : NormSlots :=
  let uni := if pyT s.uni then norm_uni R (s.uni.getD []) else none
  let dept := if pyT s.dept then norm_dept R (s.dept.getD []) else none
  let prog := if pyT s.prog then norm_prog R (s.prog.getD []) else none
  let camp := if pyT s.camp then norm_campus R (s.camp.getD []) else []
  let dept2 :=
    if pyT uni && pyT dept then
      some (adjust_dept_for_uni R (uni.getD []) (dept.getD []))
    else dept
  { uni := uni, dept := dept2, prog := prog, camp := camp, yr := s.yr }

/-- The session entry written by chat (the user_context value). -/
structure Ctx where
  awaiting : Str
  known_university : Option Str
  known_department : Option Str
  known_program : Option Str
  known_campus : Str
  known_year : Option Int
deriving DecidableEq

/-- The structured outcome of one chat call.  The two proceed constructors
    stand for entering steps 6 and 7 (reply rendering is outside the
    dialogue engine). -/
inductive ChatReply where
  | policyReply
  | askUniversity (suggestions : List Str)
  | askDepartmentAt (uni : Str) (suggestions : List Str)
  | askDepartment (suggestions : List Str)
  | askProgramFor (dept uni : Str) (options : List Str)
  | askProgram
  | proceedMulti (uni dept prog : Option Str) (camp : Str) (yr : Option Int)
  | proceedSingle (uni dept prog : Option Str) (camp : Str) (yr : Option Int)
deriving DecidableEq

/-- The step 6 test: campus non-empty and containing a comma, a word-bounded
    and (case-insensitive), or an ampersand. -/
def multiCampusTest (camp : Str) : Bool :=
  !camp.isEmpty &&
  (camp.contains ',' || wordSearch false ( "and".toList) (lowerS camp) ||
   camp.contains '&')

/-- One call of the chat endpoint: the policy short-circuit, hint merge,
    normalization, the missing-slot check with its prompt data, the
    awaited-slot block (whose fill branches are unreachable because the
    missing list is empty exactly when all three slots are truthy), and the
    dispatch into steps 6 and 7.  Returns the structured reply and the new
    session entry for this session id. -/
def chat_turn (R : List MeritRow) (nowY : Int) (store : Option Ctx)
    (hint : Option Hint) (msg : Str) : ChatReply × Option Ctx :=
  if is_policy_question msg then (ChatReply.policyReply, store)
  else
    let ns := normed_slots R (merged_slots R nowY hint msg)
    let missing :=
      (if !pyT ns.uni then [ "university".toList] else []) ++
      (if !pyT ns.dept then [ "department".toList] else []) ++
      (if !pyT ns.prog then [ "program".toList] else [])
    match missing with
    | askNext :: _ =>
      let newCtx : Ctx :=
        { awaiting := askNext,
          known_university := ns.uni, known_department := ns.dept,
          known_program := ns.prog, known_campus := ns.camp,
          known_year := ns.yr }
      let reply :=
        if askNext = "university".toList then
          ChatReply.askUniversity ((UNIS R).take 8)
        else if askNext = "department".toList then
          (if pyT ns.uni then
            ChatReply.askDepartmentAt (ns.uni.getD [])
              ((departments_at_uni R (ns.uni.getD [])).take 8)
          else ChatReply.askDepartment ((DEPTS R).take 8))
        else
          (if pyT ns.uni && pyT ns.dept then
            ChatReply.askProgramFor (ns.dept.getD []) (ns.uni.getD [])
              (programs_for R (ns.uni.getD []) (ns.dept.getD []))
          else ChatReply.askProgram)
      (reply, some newCtx)
    | [] =>
      let afterAwait : NormSlots × Option Ctx :=
        match store with
        | some c =>
          if !c.awaiting.isEmpty then
            let uni2 := if c.awaiting = "university".toList && !pyT ns.uni then
                (let t := norm_uni R msg; if pyT t then t else ns.uni)
              else ns.uni
            let dept2 := if c.awaiting = "department".toList && !pyT ns.dept then
                (let t := norm_dept R msg; if pyT t then t else ns.dept)
              else ns.dept
            let prog2 := if c.awaiting = "program".toList && !pyT ns.prog then
                (let t := norm_prog R msg; if pyT t then t else ns.prog)
              else ns.prog
            ({ ns with uni := uni2, dept := dept2, prog := prog2 }, none)
          else (ns, store)
        | none => (ns, store)
      let ns2 := afterAwait.1
      if multiCampusTest ns2.camp then
        (ChatReply.proceedMulti ns2.uni ns2.dept ns2.prog ns2.camp ns2.yr,
         afterAwait.2)
      else
        (ChatReply.proceedSingle ns2.uni ns2.dept ns2.prog ns2.camp ns2.yr,
         afterAwait.2)

set_option maxRecDepth 400000

/-- Concrete dataset with one FAST Islamabad Computing BS 2023 row. -/
def rowsFast : List MeritRow :=
  [{ university := "FAST".toList, campus := "Islamabad".toList,
     department := "Computing".toList, program := "BS".toList,
     year := 2023, minimumMerit := 80, maximumMerit := mkRat 925 10 }]

/-- Concrete dataset whose program vocabulary contains MSc and whose
    department vocabulary contains Math; both strings are also alias keys. -/
def rowsIba : List MeritRow :=
  [{ university := "IBA".toList, campus := "Karachi".toList,
     department := "Math".toList, program := "MSc".toList,
     year := 2022, minimumMerit := 70, maximumMerit := 90 }]

/-- Concrete dataset whose program vocabulary contains Associate. -/
def rowsNust : List MeritRow :=
  [{ university := "NUST".toList, campus := "Islamabad".toList,
     department := "Design".toList, program := "Associate".toList,
     year := 2023, minimumMerit := 60, maximumMerit := 80 }]

/-- Concrete dataset with data for years 2019 and 2022. -/
def rowsYearsA : List MeritRow :=
  [{ university := "U".toList, campus := "C".toList, department := "D".toList,
     program := "P".toList, year := 2019, minimumMerit := 1, maximumMerit := 2 },
   { university := "U".toList, campus := "C".toList, department := "D".toList,
     program := "P".toList, year := 2022, minimumMerit := 1, maximumMerit := 2 }]

/-- Concrete dataset with data for years 2019 and 2023. -/
def rowsYearsB : List MeritRow :=
  [{ university := "U".toList, campus := "C".toList, department := "D".toList,
     program := "P".toList, year := 2019, minimumMerit := 1, maximumMerit := 2 },
   { university := "U".toList, campus := "C".toList, department := "D".toList,
     program := "P".toList, year := 2023, minimumMerit := 1, maximumMerit := 2 }]

/-- Concrete dataset whose campus vocabulary contains Gandhara (a campus name
    carrying the letters of and) next to Lahore. -/
def rowsGandhara : List MeritRow :=
  [{ university := "GU".toList, campus := "Gandhara".toList,
     department := "Pharmacy".toList, program := "BS".toList,
     year := 2023, minimumMerit := 55, maximumMerit := 75 },
   { university := "GU".toList, campus := "Lahore".toList,
     department := "Pharmacy".toList, program := "BS".toList,
     year := 2023, minimumMerit := 56, maximumMerit := 76 }]

/-- Concrete dataset whose vocabulary entries collide with no alias key. -/
def rowsPlain : List MeritRow :=
  [{ university := "NUST".toList, campus := "Gwadar".toList,
     department := "Statistics".toList, program := "BBA".toList,
     year := 2021, minimumMerit := 50, maximumMerit := 60 }]

/-- Hint carrying the four gating fields with an absent campus key. -/
def hintEmptyCampus : Hint :=
  { university := JField.jstr ( "FAST".toList), campus := JField.absent,
    department := JField.jstr ( "Computing".toList),
    program := JField.jstr ( "BS".toList), year := JYear.jint 2023 }

/-- Hint whose program field is a single space, a truthy Python string. -/
def hintSpaceProgram : Hint :=
  { university := JField.jstr ( "FAST".toList), campus := JField.jstr [],
    department := JField.jstr ( "Computing".toList),
    program := JField.jstr ( " ".toList), year := JYear.jint 2023 }

/-- A session entry awaiting the university slot. -/
def ctxAwaitUni : Ctx :=
  { awaiting := "university".toList, known_university := none,
    known_department := none, known_program := none,
    known_campus := [], known_year := none }

/-- Whether some three consecutive characters spell the word and, the
    substring trigger of the campus separator pattern. -/
def hasAnd : Str → Bool
  | a :: b :: c :: r => check3 a b c || hasAnd (b :: c :: r)
  | _ => false

/-- The and branch of the separator pattern at head character a with rest t,
    as tested inside sepMatch. -/
def andTest (a : Char) (t : Str) : Bool :=
  match t with
  | y :: z :: _ => check3 a y z
  | _ => false

/-- A character that can never start a separator match. -/
def basicOk (c : Char) : Bool := !isWs c && c != ',' && c != '&'

/-- A separator-free single-token campus name: non-empty, without
    whitespace, comma, ampersand, or the letters of and. -/
def goodName (l : Str) : Bool := !l.isEmpty && l.all basicOk && !hasAnd l

/-- Whether a reply is one of the two program clarification prompts. -/
def progPromptB : ChatReply → Bool
  | ChatReply.askProgramFor _ _ _ => true
  | ChatReply.askProgram => true
  | _ => false

/-- C10: a message matching the policy keyword pattern makes chat return the
    fixed canned policy outcome at once, with the session store returned
    unchanged and the outcome independent of the dataset, the store and the
    hint, so no extraction, normalization, record lookup or session write
    takes place, even when the message also carries a complete merit query. -/
theorem c10_policy_short_circuit (R : List MeritRow) (nowY : Int)
    (store : Option Ctx) (hint : Option Hint) (msg : Str)
    (h : is_policy_question msg = true) :
    chat_turn R nowY store hint msg = (ChatReply.policyReply, store) := by
  simp [chat_turn, h]

/-- C10 witness: a concrete policy message that also carries a complete merit
    query, against a non-empty session store and a live hint. -/
theorem c10_policy_short_circuit_witness :
    chat_turn rowsFast 2025 (some ctxAwaitUni) (some hintEmptyCampus)
      ( "merit list policy for bs computing at fast islamabad 2023".toList) =
      (ChatReply.policyReply, some ctxAwaitUni) :=
  c10_policy_short_circuit rowsFast 2025 (some ctxAwaitUni)
    (some hintEmptyCampus)
    ( "merit list policy for bs computing at fast islamabad 2023".toList)
    (by decide)

/-- Every year produced by the four-digit scan lies between 1900 and 2099. -/
theorem yearScan_range :
    ∀ (l : Str) (prev : Option Char) (y : Int),
      yearScanAux prev l = some y → 1900 ≤ y ∧ y ≤ 2099 := by
  intro l
  induction l with
  | nil => intro prev y h; simp [yearScanAux] at h
  | cons c rest ih =>
    intro prev y h
    unfold yearScanAux at h
    split at h
    · rename_i b d1 d2 r
      split at h
      · rename_i hc
        have hy := Option.some.inj h
        simp only [Bool.and_eq_true, Bool.or_eq_true, beq_iff_eq] at hc
        have h1 : 0 ≤ digitVal d1 ∧ digitVal d1 ≤ 9 := by
          have hd := hc.1.1.2
          simp only [isDigitC, Bool.and_eq_true, decide_eq_true_eq] at hd
          unfold digitVal
          omega
        have h2 : 0 ≤ digitVal d2 ∧ digitVal d2 ≤ 9 := by
          have hd := hc.1.2
          simp only [isDigitC, Bool.and_eq_true, decide_eq_true_eq] at hd
          unfold digitVal
          omega
        rcases hc.1.1.1.2 with h20 | h19
        · rw [h20.1, h20.2] at hy
          have e2 : digitVal '2' = 2 := by decide
          have e0 : digitVal '0' = 0 := by decide
          rw [e2, e0] at hy
          omega
        · rw [h19.1, h19.2] at hy
          have e1 : digitVal '1' = 1 := by decide
          have e9 : digitVal '9' = 9 := by decide
          rw [e1, e9] at hy
          omega
      · exact ih (some c) y h
    · exact ih (some c) y h

/-- C7 counterexample: a message carrying both the last-year phrase and an
    explicit word-bounded four-digit year resolves to the current year minus
    one, not to the explicit year, because the code tests the last-year
    phrase first; the claim as stated requires the explicit year. -/
theorem c7_year_priority_counterexample :
    detect_year_from_text 2025 ( "last year 2019".toList) = 2024 ∧
    yearScanAux none (lowerS ( "last year 2019".toList)) = some 2019 ∧
    (2024 : Int) ≠ 2019 := by decide

/-- C7 amended: year extraction always resolves to an integer; the last-year
    phrase takes priority and yields the current year minus one even when an
    explicit year is present; otherwise the first word-bounded four-digit
    year (necessarily between 1900 and 2099) is returned; otherwise the
    current year. -/
theorem c7_year_priority_amended (nowY : Int) (msg : Str) :
    (lastYearSearch (lowerS msg) = true →
      detect_year_from_text nowY msg = nowY - 1) ∧
    (lastYearSearch (lowerS msg) = false →
      ∀ y, yearScanAux none (lowerS msg) = some y →
        detect_year_from_text nowY msg = y ∧ 1900 ≤ y ∧ y ≤ 2099) ∧
    (lastYearSearch (lowerS msg) = false →
      yearScanAux none (lowerS msg) = none →
      detect_year_from_text nowY msg = nowY) := by
  refine ⟨?_, ?_, ?_⟩
  · intro h; simp [detect_year_from_text, h]
  · intro h y hy
    refine ⟨?_, yearScan_range (lowerS msg) none y hy⟩
    simp [detect_year_from_text, h, hy]
  · intro h hy; simp [detect_year_from_text, h, hy]

/-- C7 witness: concrete messages for the three amended branches. -/
theorem c7_year_priority_amended_witness :
    detect_year_from_text 2025 ( "merit for last year".toList) = 2024 ∧
    detect_year_from_text 2025 ( "merit in 2021".toList) = 2021 ∧
    detect_year_from_text 2025 ( "merit please".toList) = 2025 := by
  refine ⟨?_, ?_, ?_⟩
  · exact (c7_year_priority_amended 2025 ( "merit for last year".toList)).1
      (by decide)
  · exact ((c7_year_priority_amended 2025 ( "merit in 2021".toList)).2.1
      (by decide) 2021 (by decide)).1
  · exact (c7_year_priority_amended 2025 ( "merit please".toList)).2.2
      (by decide) (by decide)

/-- The foldl underlying Python min with the absolute-distance key, on a
    sorted tail whose elements dominate the seed: the result is the first
    element attaining the minimal distance, hence also the smallest one. -/
theorem pyMinFold (yr : Int) :
    ∀ (l : List Int) (b r : Int),
      (∀ z ∈ l, b ≤ z) → List.Sorted (fun x y => x ≤ y) l →
      r = l.foldl (fun b z => if |z - yr| < |b - yr| then z else b) b →
      (r = b ∨ r ∈ l) ∧ |r - yr| ≤ |b - yr| ∧
      (∀ z ∈ l, |r - yr| ≤ |z - yr|) ∧
      (|r - yr| = |b - yr| → r = b) ∧
      (∀ z ∈ l, |z - yr| = |r - yr| → r ≤ z) ∧ b ≤ r := by
  intro l
  induction l with
  | nil =>
    intro b r _ _ hr
    simp only [List.foldl_nil] at hr
    subst hr
    simp
  | cons x xs ih =>
    intro b r hb hs hr
    simp only [List.foldl_cons] at hr
    have hbx : b ≤ x := hb x (List.mem_cons_self x xs)
    have hbxs : ∀ z ∈ xs, b ≤ z := fun z hz => hb z (List.mem_cons_of_mem x hz)
    rw [List.sorted_cons] at hs
    by_cases hlt : |x - yr| < |b - yr|
    · rw [if_pos hlt] at hr
      have hp := ih x r hs.1 hs.2 hr
      refine ⟨Or.inr ?_, ?_, ?_, ?_, ?_, ?_⟩
      · rcases hp.1 with h1 | h1
        · rw [h1]; exact List.mem_cons_self x xs
        · exact List.mem_cons_of_mem x h1
      · exact le_of_lt (lt_of_le_of_lt hp.2.1 hlt)
      · intro z hz
        rcases List.mem_cons.mp hz with h1 | h1
        · rw [h1]; exact hp.2.1
        · exact hp.2.2.1 z h1
      · intro he
        have := lt_of_le_of_lt hp.2.1 hlt
        omega
      · intro z hz he
        rcases List.mem_cons.mp hz with h1 | h1
        · subst h1
          have := hp.2.2.2.1 he.symm
          omega
        · exact hp.2.2.2.2.1 z h1 he
      · rcases hp.1 with h1 | h1
        · rw [h1]; exact hbx
        · exact le_trans hbx (hs.1 r h1)
    · rw [if_neg hlt] at hr
      have hp := ih b r hbxs hs.2 hr
      refine ⟨?_, hp.2.1, ?_, hp.2.2.2.1, ?_, hp.2.2.2.2.2⟩
      · rcases hp.1 with h1 | h1
        · exact Or.inl h1
        · exact Or.inr (List.mem_cons_of_mem x h1)
      · intro z hz
        rcases List.mem_cons.mp hz with h1 | h1
        · subst h1
          exact le_trans hp.2.1 (by omega)
        · exact hp.2.2.1 z h1
      · intro z hz he
        rcases List.mem_cons.mp hz with h1 | h1
        · subst h1
          have hrb : |r - yr| = |b - yr| := by omega
          have := hp.2.2.2.1 hrb
          subst this
          exact hbx
        · exact hp.2.2.2.2.1 z h1 he

/-- C3: the fallback-year selection returns a year of the available set with
    minimal absolute distance to the requested year, and among equidistant
    years the earlier one. -/
theorem c3_closest_year_min_abs (R : List MeritRow) (uni dept prog : Str)
    (camp : Option Str) (yr y : Int)
    (h : closest_year R uni dept prog yr camp = some y) :
    y ∈ available_years R uni dept prog camp ∧
    (∀ z ∈ available_years R uni dept prog camp, |y - yr| ≤ |z - yr|) ∧
    (∀ z ∈ available_years R uni dept prog camp,
      |z - yr| = |y - yr| → y ≤ z) := by
  unfold closest_year at h
  have hsorted : List.Sorted (fun x y => x ≤ y)
      (available_years R uni dept prog camp) := by
    unfold available_years
    exact List.sorted_insertionSort _ _
  cases hav : available_years R uni dept prog camp with
  | nil => rw [hav] at h; simp at h
  | cons b t =>
    rw [hav] at h hsorted
    simp only [Option.some.injEq] at h
    rw [List.sorted_cons] at hsorted
    have hp := pyMinFold yr t b y hsorted.1 hsorted.2 h.symm
    refine ⟨?_, ?_, ?_⟩
    · rcases hp.1 with h1 | h1
      · rw [h1]; exact List.mem_cons_self b t
      · exact List.mem_cons_of_mem b h1
    · intro z hz
      rcases List.mem_cons.mp hz with h1 | h1
      · rw [h1]; exact hp.2.1
      · exact hp.2.2.1 z h1
    · intro z hz he
      rcases List.mem_cons.mp hz with h1 | h1
      · subst h1
        have := hp.2.2.2.1 he.symm
        omega
      · exact hp.2.2.2.2.1 z h1 he

/-- C3 witness: with available years 2019 and 2022 and request 2021 the
    resolver picks 2022; with 2019 and 2023 it breaks the tie to 2019; the
    minimality conclusions are instantiated on the first dataset. -/
theorem c3_closest_year_witness :
    closest_year rowsYearsA ( "U".toList) ( "D".toList) ( "P".toList)
      2021 none = some 2022 ∧
    available_years rowsYearsA ( "U".toList) ( "D".toList) ( "P".toList) none =
      [2019, 2022] ∧
    (∀ z ∈ available_years rowsYearsA ( "U".toList) ( "D".toList)
      ( "P".toList) none, |2022 - 2021| ≤ |z - 2021|) ∧
    closest_year rowsYearsB ( "U".toList) ( "D".toList) ( "P".toList)
      2021 none = some 2019 := by
  refine ⟨by decide, by decide, ?_, by decide⟩
  exact (c3_closest_year_min_abs rowsYearsA ( "U".toList) ( "D".toList)
    ( "P".toList) none 2021 2022 (by decide)).2.1

/-- C1: evaluation of the dialogue over two turns on a dataset where only
    the university is initially missing (N equals one).  The first turn
    stores the known department and program in the session and asks for the
    university; the second turn supplies exactly the missing university, yet
    the endpoint asks for the department again instead of reaching the
    lookup, because the stored known slots are never merged back (the
    awaited-slot block of the source runs only when nothing is missing, so
    its fill branches are dead). -/
theorem c1_session_merge_code_bug :
    (chat_turn rowsFast 2025 none none ( "computing bs merit".toList)).1 =
      ChatReply.askUniversity [( "FAST".toList)] ∧
    (chat_turn rowsFast 2025 none none ( "computing bs merit".toList)).2 =
      some { awaiting := "university".toList, known_university := none,
             known_department := some ( "Computing".toList),
             known_program := some ( "BS".toList),
             known_campus := [], known_year := some 2025 } ∧
    (chat_turn rowsFast 2025
        (chat_turn rowsFast 2025 none none ( "computing bs merit".toList)).2
        none ( "FAST".toList)).1 =
      ChatReply.askDepartmentAt ( "FAST".toList) [( "Computing".toList)] := by
  refine ⟨by decide, by decide, by decide⟩

/-- C2 counterexample: a hint carrying university, department, program and
    year but an empty campus suppresses the extractor entirely, so the
    extracted campus of the message is dropped instead of being used for the
    empty hint field; the fields are not combined independently. -/
theorem c2_hint_merge_counterexample :
    (merged_slots rowsFast 2025 (some hintEmptyCampus)
      ( "islamabad merit".toList)).camp = some [] ∧
    (cheap_extract rowsFast 2025 ( "islamabad merit".toList)).camp =
      some ( "Islamabad".toList) ∧
    (some ([] : Str)) ≠ some ( "Islamabad".toList) := by
  refine ⟨by decide, by decide, by decide⟩

/-- C2 amended: with no (or a malformed) hint the turn behaves exactly as
    the extractor alone, with no error; when the hint leaves one of
    university, department, program or year falsy, each field keeps the
    truthy hint value and otherwise takes the extractor value; but when the
    hint supplies all four of those fields the extractor is never consulted,
    so an empty hint campus stays empty instead of falling back to the
    extractor campus. -/
theorem c2_hint_merge_amended (R : List MeritRow) (nowY : Int) (msg : Str) :
    (merged_slots R nowY none msg =
      { uni := (cheap_extract R nowY msg).uni,
        camp := (cheap_extract R nowY msg).camp,
        dept := (cheap_extract R nowY msg).dept,
        prog := some (cheap_extract R nowY msg).prog,
        yr := some (cheap_extract R nowY msg).year }) ∧
    (∀ hint : Option Hint,
      (pyT (hint_slots nowY msg hint).uni && pyT (hint_slots nowY msg hint).dept &&
       pyT (hint_slots nowY msg hint).prog && pyTI (hint_slots nowY msg hint).yr) =
        true →
      merged_slots R nowY hint msg = hint_slots nowY msg hint) ∧
    (∀ hint : Option Hint,
      (pyT (hint_slots nowY msg hint).uni && pyT (hint_slots nowY msg hint).dept &&
       pyT (hint_slots nowY msg hint).prog && pyTI (hint_slots nowY msg hint).yr) =
        false →
      merged_slots R nowY hint msg =
        { uni := pyOr (hint_slots nowY msg hint).uni (cheap_extract R nowY msg).uni,
          camp := pyOr (hint_slots nowY msg hint).camp
            (cheap_extract R nowY msg).camp,
          dept := pyOr (hint_slots nowY msg hint).dept
            (cheap_extract R nowY msg).dept,
          prog := pyOr (hint_slots nowY msg hint).prog
            (some (cheap_extract R nowY msg).prog),
          yr := if pyTI (hint_slots nowY msg hint).yr then
              (hint_slots nowY msg hint).yr
            else some (cheap_extract R nowY msg).year }) := by
  refine ⟨?_, ?_, ?_⟩
  · simp [merged_slots, hint_slots, pyOr, pyT, pyTI]
  · intro hint h
    simp only [merged_slots, h, Bool.not_true, Bool.false_eq_true, if_false]
  · intro hint h
    simp only [merged_slots, h, Bool.not_false, if_true]

/-- C2 witness: the pure-extractor equation and the all-four-fields hint
    equation at a concrete dataset, message and hint. -/
theorem c2_hint_merge_amended_witness :
    merged_slots rowsFast 2025 none ( "islamabad merit".toList) =
      { uni := (cheap_extract rowsFast 2025 ( "islamabad merit".toList)).uni,
        camp := (cheap_extract rowsFast 2025 ( "islamabad merit".toList)).camp,
        dept := (cheap_extract rowsFast 2025 ( "islamabad merit".toList)).dept,
        prog := some (cheap_extract rowsFast 2025 ( "islamabad merit".toList)).prog,
        yr := some (cheap_extract rowsFast 2025 ( "islamabad merit".toList)).year } ∧
    merged_slots rowsFast 2025 (some hintEmptyCampus) ( "islamabad merit".toList) =
      hint_slots 2025 ( "islamabad merit".toList) (some hintEmptyCampus) := by
  constructor
  · exact (c2_hint_merge_amended rowsFast 2025 ( "islamabad merit".toList)).1
  · exact (c2_hint_merge_amended rowsFast 2025 ( "islamabad merit".toList)).2.1
      (some hintEmptyCampus) (by decide)

/-- C6 counterexample: program extraction has no fuzzy pass.  On a dataset
    whose program vocabulary holds Associate, the message token associte
    scores 16 over 17 (at least the 0.90 cutoff) against that entry, so the
    claimed third tier would return it, yet cheap_extract returns the BS
    default after the alias and substring passes fail. -/
theorem c6_prog_tiers_counterexample :
    (cheap_extract rowsNust 2025 ( "associte degree".toList)).prog =
      "BS".toList ∧
    ( "associte".toList) ∈ tokensMin 2 (lowerS ( "associte degree".toList)) ∧
    fuzzy_pick ( "associte".toList) (PROGS rowsNust) (mkRat 90 100) =
      some ( "Associate".toList) ∧
    ( "BS".toList) ≠ ( "Associate".toList) := by
  refine ⟨by decide, by decide, by decide, by decide⟩

/-- A successful findSome? is produced by some member of the list. -/
theorem findSome?_mem {α β : Type} (f : α → Option β) :
    ∀ (l : List α) (b : β), l.findSome? f = some b →
      ∃ a, a ∈ l ∧ f a = some b := by
  intro l
  induction l with
  | nil => intro b h; simp [List.findSome?] at h
  | cons x xs ih =>
    intro b h
    rw [List.findSome?_cons] at h
    cases hf : f x with
    | some y =>
      rw [hf] at h
      simp only [Option.some.injEq] at h
      exact ⟨x, List.mem_cons_self x xs, by rw [hf, h]⟩
    | none =>
      rw [hf] at h
      simp only [] at h
      rcases ih b h with ⟨a, ha, hfa⟩
      exact ⟨a, List.mem_cons_of_mem x ha, hfa⟩

/-- C6 amended: program extraction applies two passes, the alias whole-word
    match and the vocabulary substring match, in that order, and returns BS
    when both fail (never an absent value); every result is BS, an alias
    value, or a vocabulary entry. -/
theorem c6_prog_tiers_amended (R : List MeritRow) (msgL : Str) :
    (∀ p, extract_prog_alias msgL = some p → extract_prog R msgL = p) ∧
    (extract_prog_alias msgL = none →
      ∀ p, extract_prog_sub R msgL = some p → extract_prog R msgL = p) ∧
    (extract_prog_alias msgL = none → extract_prog_sub R msgL = none →
      extract_prog R msgL = "BS".toList) ∧
    (extract_prog R msgL = "BS".toList ∨
      (∃ kv, kv ∈ prog_aliases ∧ extract_prog R msgL = kv.2) ∨
      extract_prog R msgL ∈ PROGS R) := by
  refine ⟨?_, ?_, ?_, ?_⟩
  · intro p h; simp [extract_prog, h]
  · intro h p h2; simp [extract_prog, h, h2]
  · intro h h2; simp [extract_prog, h, h2]
  · unfold extract_prog
    cases h1 : extract_prog_alias msgL with
    | some p =>
      rcases findSome?_mem _ prog_aliases p h1 with ⟨kv, hkv, hf⟩
      refine Or.inr (Or.inl ⟨kv, hkv, ?_⟩)
      by_cases hw : wordSearch true kv.1 msgL = true
      · rw [if_pos hw] at hf
        exact (Option.some.inj hf).symm
      · rw [if_neg hw] at hf
        exact absurd hf (by simp)
    | none =>
      cases h2 : extract_prog_sub R msgL with
      | some p =>
        exact Or.inr (Or.inr (List.mem_of_find?_eq_some h2))
      | none => exact Or.inl rfl

/-- C6 witness: instantiation of the amended passes on the counterexample
    message, where both passes fail and the default fires. -/
theorem c6_prog_tiers_amended_witness :
    extract_prog rowsNust (lowerS ( "associte degree".toList)) =
      "BS".toList :=
  (c6_prog_tiers_amended rowsNust
    (lowerS ( "associte degree".toList))).2.2.1 (by decide) (by decide)

/-- Generic foldl invariant. -/
theorem foldl_inv {α β : Type} (P : β → Prop) (f : β → α → β) :
    ∀ (l : List α) (init : β), P init →
      (∀ b a, a ∈ l → P b → P (f b a)) → P (l.foldl f init) := by
  intro l
  induction l with
  | nil => intro init h _; exact h
  | cons x xs ih =>
    intro init h hstep
    simp only [List.foldl_cons]
    exact ih (f init x) (hstep init x (List.mem_cons_self x xs) h)
      (fun b a ha hb => hstep b a (List.mem_cons_of_mem x ha) hb)

theorem cpl_le_left : ∀ (a b : Str), cpl a b ≤ a.length := by
  intro a
  induction a with
  | nil => intro b; cases b <;> simp [cpl]
  | cons x xs ih =>
    intro b
    cases b with
    | nil => simp [cpl]
    | cons y ys =>
      by_cases h : x = y
      · simp only [cpl, if_pos h, List.length_cons]
        exact Nat.succ_le_succ (ih ys)
      · simp only [cpl, if_neg h]
        exact Nat.zero_le _

theorem cpl_le_right : ∀ (a b : Str), cpl a b ≤ b.length := by
  intro a
  induction a with
  | nil => intro b; cases b <;> simp [cpl]
  | cons x xs ih =>
    intro b
    cases b with
    | nil => simp [cpl]
    | cons y ys =>
      by_cases h : x = y
      · simp only [cpl, if_pos h, List.length_cons]
        exact Nat.succ_le_succ (ih ys)
      · simp only [cpl, if_neg h]
        exact Nat.zero_le _

theorem cpl_take_eq : ∀ (a b : Str), a.take (cpl a b) = b.take (cpl a b) := by
  intro a
  induction a with
  | nil => intro b; cases b <;> simp [cpl]
  | cons x xs ih =>
    intro b
    cases b with
    | nil => simp [cpl]
    | cons y ys =>
      by_cases h : x = y
      · simp only [cpl, if_pos h, List.take_succ_cons]
        rw [h, ih ys]
      · simp [cpl, if_neg h]

theorem cpl_self : ∀ (l : Str), cpl l l = l.length := by
  intro l
  induction l with
  | nil => rfl
  | cons x xs ih => simp [cpl, ih]

/-- Any output of bestK is within bounds, and when its length component is
    non-zero it names a genuine common substring. -/
theorem bestK_spec (a b : Str) :
    (bestK a b).1 + (bestK a b).2.2 ≤ a.length ∧
    (bestK a b).2.1 + (bestK a b).2.2 ≤ b.length ∧
    ((bestK a b).2.2 ≠ 0 →
      (a.drop (bestK a b).1).take (bestK a b).2.2 =
        (b.drop (bestK a b).2.1).take (bestK a b).2.2) := by
  unfold bestK
  refine foldl_inv
    (fun t : Nat × Nat × Nat => t.1 + t.2.2 ≤ a.length ∧ t.2.1 + t.2.2 ≤ b.length ∧
      (t.2.2 ≠ 0 → (a.drop t.1).take t.2.2 = (b.drop t.2.1).take t.2.2))
    _ _ _ ⟨Nat.zero_le _, Nat.zero_le _, fun h => absurd rfl h⟩ ?_
  intro best i hi hbest
  refine foldl_inv
    (fun t : Nat × Nat × Nat => t.1 + t.2.2 ≤ a.length ∧ t.2.1 + t.2.2 ≤ b.length ∧
      (t.2.2 ≠ 0 → (a.drop t.1).take t.2.2 = (b.drop t.2.1).take t.2.2))
    _ _ _ hbest ?_
  intro best2 j hj hbest2
  by_cases hk : best2.2.2 < cpl (a.drop i) (b.drop j)
  · rw [if_pos hk]
    dsimp only
    have hia : i < a.length := List.mem_range.mp hi
    have hjb : j < b.length := List.mem_range.mp hj
    have h1 := cpl_le_left (a.drop i) (b.drop j)
    have h2 := cpl_le_right (a.drop i) (b.drop j)
    rw [List.length_drop] at h1 h2
    exact ⟨by omega, by omega, fun _ => cpl_take_eq (a.drop i) (b.drop j)⟩
  · rw [if_neg hk]
    exact hbest2

/-- On identical inputs bestK selects the whole string at the origin. -/
theorem bestK_self (l : Str) : bestK l l = (0, 0, l.length) := by
  have hkeep : ∀ (g : Nat × Nat × Nat → Nat → Nat × Nat × Nat),
      (∀ j, g (0, 0, l.length) j = (0, 0, l.length)) →
      ∀ (js : List Nat), js.foldl g (0, 0, l.length) = (0, 0, l.length) := by
    intro g hg js
    refine foldl_inv (fun t : Nat × Nat × Nat => t = (0, 0, l.length))
      g js _ rfl ?_
    intro t j _ ht
    rw [ht]
    exact hg j
  cases hl : l.length with
  | zero =>
    have hnil : l = [] := List.length_eq_zero.mp hl
    subst hnil
    rfl
  | succ n =>
    have hrange : List.range l.length = 0 :: List.map Nat.succ (List.range n) := by
      rw [hl, List.range_succ_eq_map]
    have hinner0 : List.foldl
        (fun best j => if best.2.2 < cpl (l.drop 0) (l.drop j)
          then (0, j, cpl (l.drop 0) (l.drop j)) else best) (0, 0, 0)
        (List.range l.length) = (0, 0, l.length) := by
      rw [hrange]
      simp only [List.foldl_cons, List.drop_zero]
      have h0 : (if 0 < cpl l l then ((0 : Nat), (0 : Nat), cpl l l)
          else ((0 : Nat), (0 : Nat), (0 : Nat))) = (0, 0, l.length) := by
        rw [cpl_self, if_pos (show 0 < l.length by omega)]
      rw [h0]
      apply hkeep
      intro j
      show (if (0, 0, l.length).2.2 < cpl l (l.drop j)
        then ((0 : Nat), j, cpl l (l.drop j)) else (0, 0, l.length)) =
        (0, 0, l.length)
      apply if_neg
      dsimp only
      have h1 := cpl_le_left l (l.drop j)
      omega
    unfold bestK
    nth_rewrite 2 [hrange]
    simp only [List.foldl_cons]
    rw [hinner0, ← hl]
    apply hkeep
    intro i
    dsimp only
    apply hkeep
    intro j
    show (if (0, 0, l.length).2.2 < cpl (l.drop i) (l.drop j)
      then (i, j, cpl (l.drop i) (l.drop j)) else (0, 0, l.length)) =
      (0, 0, l.length)
    apply if_neg
    dsimp only
    have h1 := cpl_le_left (l.drop i) (l.drop j)
    rw [List.length_drop] at h1
    omega

theorem mtAux_nil : ∀ (fuel : Nat), mtAux fuel [] [] = 0 := by
  intro fuel
  cases fuel with
  | zero => rfl
  | succ f => rfl

theorem mtAux_le : ∀ (fuel : Nat) (a b : Str), a.length < fuel →
    mtAux fuel a b ≤ a.length ∧ mtAux fuel a b ≤ b.length := by
  intro fuel
  induction fuel with
  | zero => intro a b h; exact absurd h (Nat.not_lt_zero _)
  | succ f ih =>
    intro a b h
    by_cases hk : (bestK a b).2.2 = 0
    · unfold mtAux
      rw [if_pos hk]
      exact ⟨Nat.zero_le _, Nat.zero_le _⟩
    · unfold mtAux
      rw [if_neg hk]
      obtain ⟨hb1, hb2, _⟩ := bestK_spec a b
      have hia : (a.take (bestK a b).1).length = (bestK a b).1 := by
        rw [List.length_take]; omega
      have hjb : (b.take (bestK a b).2.1).length = (bestK a b).2.1 := by
        rw [List.length_take]; omega
      have hL : (a.take (bestK a b).1).length < f := by rw [hia]; omega
      have hR : (a.drop ((bestK a b).1 + (bestK a b).2.2)).length < f := by
        rw [List.length_drop]; omega
      have ihl := ih (a.take (bestK a b).1) (b.take (bestK a b).2.1) hL
      have ihr := ih (a.drop ((bestK a b).1 + (bestK a b).2.2))
        (b.drop ((bestK a b).2.1 + (bestK a b).2.2)) hR
      rw [hia, hjb] at ihl
      rw [List.length_drop, List.length_drop] at ihr
      constructor <;> omega

theorem mtAux_self : ∀ (fuel : Nat) (l : Str), l.length < fuel →
    mtAux fuel l l = l.length := by
  intro fuel
  cases fuel with
  | zero => intro l h; exact absurd h (Nat.not_lt_zero _)
  | succ f =>
    intro l h
    unfold mtAux
    rw [bestK_self]
    by_cases hlen : l.length = 0
    · rw [if_pos (show ((0 : Nat), (0 : Nat), l.length).2.2 = 0 from hlen)]
      exact hlen.symm
    · rw [if_neg (show ¬(((0 : Nat), (0 : Nat), l.length).2.2 = 0) from hlen)]
      dsimp only
      simp only [List.take_zero, Nat.zero_add, List.drop_length, mtAux_nil]
      omega

theorem mtAux_eq_of_max : ∀ (fuel : Nat) (a b : Str), a.length < fuel →
    mtAux fuel a b = a.length → mtAux fuel a b = b.length → a = b := by
  intro fuel
  induction fuel with
  | zero => intro a b h _ _; exact absurd h (Nat.not_lt_zero _)
  | succ f ih =>
    intro a b h hA hB
    by_cases hk : (bestK a b).2.2 = 0
    · unfold mtAux at hA hB
      rw [if_pos hk] at hA hB
      have ha : a = [] := List.length_eq_zero.mp hA.symm
      have hb : b = [] := List.length_eq_zero.mp hB.symm
      rw [ha, hb]
    · unfold mtAux at hA hB
      rw [if_neg hk] at hA hB
      obtain ⟨hb1, hb2, hb3⟩ := bestK_spec a b
      have hia : (a.take (bestK a b).1).length = (bestK a b).1 := by
        rw [List.length_take]; omega
      have hjb : (b.take (bestK a b).2.1).length = (bestK a b).2.1 := by
        rw [List.length_take]; omega
      have hL : (a.take (bestK a b).1).length < f := by rw [hia]; omega
      have hR : (a.drop ((bestK a b).1 + (bestK a b).2.2)).length < f := by
        rw [List.length_drop]; omega
      have mtL := mtAux_le f (a.take (bestK a b).1) (b.take (bestK a b).2.1) hL
      have mtR := mtAux_le f (a.drop ((bestK a b).1 + (bestK a b).2.2))
        (b.drop ((bestK a b).2.1 + (bestK a b).2.2)) hR
      rw [hia, hjb] at mtL
      rw [List.length_drop, List.length_drop] at mtR
      have hij : (bestK a b).1 = (bestK a b).2.1 := by omega
      have heqL : mtAux f (a.take (bestK a b).1) (b.take (bestK a b).2.1) =
          (bestK a b).1 := by omega
      have heqR : mtAux f (a.drop ((bestK a b).1 + (bestK a b).2.2))
          (b.drop ((bestK a b).2.1 + (bestK a b).2.2)) =
          a.length - ((bestK a b).1 + (bestK a b).2.2) := by omega
      have heqR2 : mtAux f (a.drop ((bestK a b).1 + (bestK a b).2.2))
          (b.drop ((bestK a b).2.1 + (bestK a b).2.2)) =
          b.length - ((bestK a b).2.1 + (bestK a b).2.2) := by omega
      have hTL : a.take (bestK a b).1 = b.take (bestK a b).2.1 := by
        apply ih _ _ hL
        · rw [hia]; exact heqL
        · rw [hjb]; exact heqL.trans hij
      have hDR : a.drop ((bestK a b).1 + (bestK a b).2.2) =
          b.drop ((bestK a b).2.1 + (bestK a b).2.2) := by
        apply ih _ _ hR
        · rw [List.length_drop]; exact heqR
        · rw [List.length_drop]; exact heqR2
      have hMid := hb3 hk
      have hdd_a : (a.drop (bestK a b).1).drop (bestK a b).2.2 =
          a.drop ((bestK a b).1 + (bestK a b).2.2) := by
        rw [List.drop_drop, Nat.add_comm]
      have hdd_b : (b.drop (bestK a b).2.1).drop (bestK a b).2.2 =
          b.drop ((bestK a b).2.1 + (bestK a b).2.2) := by
        rw [List.drop_drop, Nat.add_comm]
      calc a = a.take (bestK a b).1 ++ ((a.drop (bestK a b).1).take (bestK a b).2.2
              ++ (a.drop (bestK a b).1).drop (bestK a b).2.2) := by
            rw [List.take_append_drop, List.take_append_drop]
        _ = b.take (bestK a b).2.1 ++ ((b.drop (bestK a b).2.1).take (bestK a b).2.2
              ++ (b.drop (bestK a b).2.1).drop (bestK a b).2.2) := by
            rw [hTL, hMid, hdd_a, hDR, ← hdd_b]
        _ = b := by rw [List.take_append_drop, List.take_append_drop]

theorem matchTotal_le (a b : Str) :
    matchTotal a b ≤ a.length ∧ matchTotal a b ≤ b.length :=
  mtAux_le (a.length + 1) a b (Nat.lt_succ_self _)

theorem matchTotal_self (l : Str) : matchTotal l l = l.length :=
  mtAux_self (l.length + 1) l (Nat.lt_succ_self _)

theorem matchTotal_eq_of_max (a b : Str) (hA : matchTotal a b = a.length)
    (hB : matchTotal a b = b.length) : a = b :=
  mtAux_eq_of_max (a.length + 1) a b (Nat.lt_succ_self _) hA hB

/-- The ratio of two strings with equal lowercase forms is 1. -/
theorem ratio_self (a b : Str) (h : lowerS a = lowerS b) : ratio a b = 1 := by
  unfold ratio
  rw [h]
  by_cases hz : (lowerS b).length + (lowerS b).length = 0
  · rw [if_pos hz]
  · rw [if_neg hz]
    rw [matchTotal_self, Rat.mkRat_eq_div]
    have hnum : ((2 * ((lowerS b).length : Int) : Int) : ℚ) =
        (((lowerS b).length + (lowerS b).length : Nat) : ℚ) := by
      push_cast; ring
    rw [hnum]
    exact div_self (by exact_mod_cast hz)

/-- The ratio never exceeds 1. -/
theorem ratio_le_one (a b : Str) : ratio a b ≤ 1 := by
  unfold ratio
  by_cases hz : (lowerS a).length + (lowerS b).length = 0
  · rw [if_pos hz]
  · rw [if_neg hz, Rat.mkRat_eq_div]
    rw [div_le_one (by exact_mod_cast Nat.pos_of_ne_zero hz)]
    have hm := matchTotal_le (lowerS a) (lowerS b)
    have key : (2 * (matchTotal (lowerS a) (lowerS b) : Int)) ≤
        (((lowerS a).length : Int) + ((lowerS b).length : Int)) := by
      have h1 := hm.1
      have h2 := hm.2
      omega
    exact_mod_cast key

/-- The ratio is non-negative. -/
theorem ratio_nonneg (a b : Str) : 0 ≤ ratio a b := by
  unfold ratio
  by_cases hz : (lowerS a).length + (lowerS b).length = 0
  · rw [if_pos hz]
    exact zero_le_one
  · rw [if_neg hz, Rat.mkRat_eq_div]
    apply div_nonneg
    · positivity
    · positivity

/-- The ratio of strings with distinct lowercase forms is strictly below 1. -/
theorem ratio_lt_one (a b : Str) (hne : lowerS a ≠ lowerS b)
    (hnz : (lowerS a).length + (lowerS b).length ≠ 0) : ratio a b < 1 := by
  unfold ratio
  rw [if_neg hnz, Rat.mkRat_eq_div]
  rw [div_lt_one (by exact_mod_cast Nat.pos_of_ne_zero hnz)]
  have hm := matchTotal_le (lowerS a) (lowerS b)
  have hstrict : 2 * matchTotal (lowerS a) (lowerS b) <
      (lowerS a).length + (lowerS b).length := by
    rcases Nat.lt_or_ge (2 * matchTotal (lowerS a) (lowerS b))
      ((lowerS a).length + (lowerS b).length) with hlt | hge
    · exact hlt
    · exfalso
      have hA : matchTotal (lowerS a) (lowerS b) = (lowerS a).length := by
        have h1 := hm.1
        have h2 := hm.2
        omega
      have hB : matchTotal (lowerS a) (lowerS b) = (lowerS b).length := by
        have h1 := hm.1
        have h2 := hm.2
        omega
      exact hne (matchTotal_eq_of_max _ _ hA hB)
  have key : (2 * (matchTotal (lowerS a) (lowerS b) : Int)) <
      (((lowerS a).length : Int) + ((lowerS b).length : Int)) := by omega
  exact_mod_cast key

/-- Invariant of the fuzzy_pick fold: the accumulator only improves, the
    result is the seed or a scanned option with its own ratio, and the
    result dominates every scanned ratio. -/
theorem fuzzyFold_spec (cand : Str) :
    ∀ (l : List Str) (acc : Option Str × ℚ),
      (l.foldl (fuzzyStep cand) acc = acc ∨
        ∃ v, v ∈ l ∧ l.foldl (fuzzyStep cand) acc = (some v, ratio cand v)) ∧
      acc.2 ≤ (l.foldl (fuzzyStep cand) acc).2 ∧
      (∀ o ∈ l, ratio cand o ≤ (l.foldl (fuzzyStep cand) acc).2) := by
  intro l
  induction l with
  | nil =>
    intro acc
    simp
  | cons x xs ih =>
    intro acc
    simp only [List.foldl_cons]
    have ihx := ih (fuzzyStep cand acc x)
    by_cases hx : acc.2 < ratio cand x
    · have hstep : fuzzyStep cand acc x = (some x, ratio cand x) := by
        simp [fuzzyStep, hx]
      rw [hstep] at ihx
      refine ⟨?_, ?_, ?_⟩
      · rcases ihx.1 with h1 | ⟨v, hv, h1⟩
        · exact Or.inr ⟨x, List.mem_cons_self x xs, by rw [hstep, h1]⟩
        · exact Or.inr ⟨v, List.mem_cons_of_mem x hv, by rw [hstep, h1]⟩
      · rw [hstep]
        have h2 := ihx.2.1
        calc acc.2 ≤ ratio cand x := le_of_lt hx
          _ ≤ _ := h2
      · intro o ho
        rw [hstep]
        rcases List.mem_cons.mp ho with h1 | h1
        · rw [h1]; exact ihx.2.1
        · exact ihx.2.2 o h1
    · have hstep : fuzzyStep cand acc x = acc := by
        simp [fuzzyStep, hx]
      rw [hstep] at ihx
      refine ⟨?_, ?_, ?_⟩
      · rcases ihx.1 with h1 | ⟨v, hv, h1⟩
        · exact Or.inl (by rw [hstep, h1])
        · exact Or.inr ⟨v, List.mem_cons_of_mem x hv, by rw [hstep, h1]⟩
      · rw [hstep]
        exact ihx.2.1
      · intro o ho
        rw [hstep]
        rcases List.mem_cons.mp ho with h1 | h1
        · rw [h1]
          exact le_trans (le_of_not_lt hx) ihx.2.1
        · exact ihx.2.2 o h1

/-- A successful fuzzy_pick names a cutoff-clearing option of maximal ratio. -/
theorem fuzzy_pick_some (cand : Str) (opts : List Str) (cutoff : ℚ) (v : Str)
    (h : fuzzy_pick cand opts cutoff = some v) :
    v ∈ opts ∧ cutoff ≤ ratio cand v ∧ ∀ o ∈ opts, ratio cand o ≤ ratio cand v := by
  unfold fuzzy_pick at h
  by_cases hg : (cand.isEmpty || opts.isEmpty) = true
  · rw [if_pos hg] at h
    exact absurd h (by simp)
  · rw [if_neg hg] at h
    by_cases hc : cutoff ≤ (opts.foldl (fuzzyStep cand) (none, 0)).2
    · rw [if_pos hc] at h
      have hf := fuzzyFold_spec cand opts (none, 0)
      rcases hf.1 with h1 | ⟨w, hw, h1⟩
      · rw [h1] at h
        exact absurd h (by simp)
      · rw [h1] at h hc
        have hwv : w = v := Option.some.inj h
        subst hwv
        exact ⟨hw, hc, by
          intro o ho
          have := hf.2.2 o ho
          rw [h1] at this
          exact this⟩
    · rw [if_neg hc] at h
      exact absurd h (by simp)

/-- A failed fuzzy_pick with a positive cutoff and non-empty candidate means
    every option scores strictly below the cutoff. -/
theorem fuzzy_pick_none (cand : Str) (opts : List Str) (cutoff : ℚ)
    (hcut : 0 < cutoff) (hcand : cand ≠ [])
    (h : fuzzy_pick cand opts cutoff = none) :
    ∀ o ∈ opts, ratio cand o < cutoff := by
  unfold fuzzy_pick at h
  by_cases hg : (cand.isEmpty || opts.isEmpty) = true
  · intro o ho
    exfalso
    rcases Bool.or_eq_true_iff.mp hg with h1 | h1
    · exact hcand (by simpa using h1)
    · rw [List.isEmpty_iff] at h1
      subst h1
      exact absurd ho (List.not_mem_nil o)
  · rw [if_neg hg] at h
    by_cases hc : cutoff ≤ (opts.foldl (fuzzyStep cand) (none, 0)).2
    · rw [if_pos hc] at h
      have hf := fuzzyFold_spec cand opts (none, 0)
      rcases hf.1 with h1 | ⟨w, hw, h1⟩
      · rw [h1] at hc
        exact absurd (lt_of_lt_of_le hcut hc) (by norm_num)
      · rw [h1] at h
        exact absurd h (by simp)
    · intro o ho
      have hf := fuzzyFold_spec cand opts (none, 0)
      exact lt_of_le_of_lt (hf.2.2 o ho) (lt_of_not_le hc)

/-- Once the accumulator carries ratio 1, the fuzzy fold never moves. -/
theorem fuzzy_fold_stable (cand v : Str) :
    ∀ (l : List Str), (∀ o ∈ l, ratio cand o ≤ 1) →
      l.foldl (fuzzyStep cand) (some v, 1) = (some v, 1) := by
  intro l
  induction l with
  | nil => intro _; rfl
  | cons x xs ih =>
    intro h
    simp only [List.foldl_cons]
    have hstep : fuzzyStep cand (some v, 1) x = (some v, 1) := by
      simp only [fuzzyStep]
      rw [if_neg]
      exact not_lt.mpr (h x (List.mem_cons_self x xs))
    rw [hstep]
    exact ih (fun o ho => h o (List.mem_cons_of_mem x ho))

/-- When exactly one option has ratio 1 and the accumulator is below 1, the
    fuzzy fold ends at that option. -/
theorem fuzzy_fold_reach (cand v : Str) :
    ∀ (l : List Str) (acc : Option Str × ℚ), acc.2 < 1 → v ∈ l →
      (∀ o ∈ l, ratio cand o ≤ 1) →
      (∀ o ∈ l, ratio cand o = 1 → o = v) →
      ratio cand v = 1 →
      l.foldl (fuzzyStep cand) acc = (some v, 1) := by
  intro l
  induction l with
  | nil => intro acc _ hv _ _ _; exact absurd hv (List.not_mem_nil v)
  | cons x xs ih =>
    intro acc hacc hv hle huniq hrv
    simp only [List.foldl_cons]
    by_cases hxv : x = v
    · subst hxv
      have hstep : fuzzyStep cand acc x = (some x, 1) := by
        simp only [fuzzyStep, hrv]
        rw [if_pos hacc]
      rw [hstep]
      exact fuzzy_fold_stable cand x xs (fun o ho => hle o (List.mem_cons_of_mem x ho))
    · have hxlt : ratio cand x < 1 := by
        rcases lt_or_eq_of_le (hle x (List.mem_cons_self x xs)) with h1 | h1
        · exact h1
        · exact absurd (huniq x (List.mem_cons_self x xs) h1) hxv
      have hv2 : v ∈ xs := by
        rcases List.mem_cons.mp hv with h1 | h1
        · exact absurd h1.symm hxv
        · exact h1
      by_cases hx : acc.2 < ratio cand x
      · have hstep : fuzzyStep cand acc x = (some x, ratio cand x) := by
          simp [fuzzyStep, hx]
        rw [hstep]
        exact ih (some x, ratio cand x) hxlt hv2
          (fun o ho => hle o (List.mem_cons_of_mem x ho))
          (fun o ho h1 => huniq o (List.mem_cons_of_mem x ho) h1) hrv
      · have hstep : fuzzyStep cand acc x = acc := by simp [fuzzyStep, hx]
        rw [hstep]
        exact ih acc hacc hv2 (fun o ho => hle o (List.mem_cons_of_mem x ho))
          (fun o ho h1 => huniq o (List.mem_cons_of_mem x ho) h1) hrv

/-- fuzzy_pick returns the unique ratio-1 option whenever the cutoff is at
    most 1. -/
theorem fuzzy_pick_first_exact (cand : Str) (opts : List Str) (cutoff : ℚ)
    (v : Str) (hcand : cand ≠ []) (hv : v ∈ opts) (hrv : ratio cand v = 1)
    (huniq : ∀ o ∈ opts, ratio cand o = 1 → o = v) (hcut : cutoff ≤ 1) :
    fuzzy_pick cand opts cutoff = some v := by
  have h1 : cand.isEmpty = false := by
    cases cand with
    | nil => exact absurd rfl hcand
    | cons _ _ => rfl
  have h2 : opts.isEmpty = false := by
    cases opts with
    | nil => exact absurd hv (List.not_mem_nil v)
    | cons _ _ => rfl
  unfold fuzzy_pick
  rw [if_neg (by rw [h1, h2]; simp)]
  have hfold := fuzzy_fold_reach cand v opts (none, 0) (by norm_num) hv
    (fun o _ => ratio_le_one cand o) huniq hrv
  show (if cutoff ≤ (opts.foldl (fuzzyStep cand) (none, 0)).2
    then (opts.foldl (fuzzyStep cand) (none, 0)).1 else none) = some v
  rw [hfold]
  rw [if_pos hcut]

/-- find? returns the unique satisfying member. -/
theorem find?_eq_of_unique (p : Str → Bool) :
    ∀ (l : List Str) (v : Str), v ∈ l → p v = true →
      (∀ u ∈ l, p u = true → u = v) → l.find? p = some v := by
  intro l
  induction l with
  | nil => intro v hv _ _; exact absurd hv (List.not_mem_nil v)
  | cons x xs ih =>
    intro v hv hpv huniq
    by_cases hx : p x = true
    · rw [List.find?_cons_of_pos _ hx]
      rw [huniq x (List.mem_cons_self x xs) hx]
    · rw [List.find?_cons_of_neg _ hx]
      apply ih
      · rcases List.mem_cons.mp hv with h1 | h1
        · exact absurd (h1 ▸ hpv) hx
        · exact h1
      · exact hpv
      · intro u hu hpu
        exact huniq u (List.mem_cons_of_mem x hu) hpu

theorem mem_sortStrs (v : Str) (l : List Str) : v ∈ sortStrs l ↔ v ∈ l :=
  (List.perm_insertionSort _ l).mem_iff

/-- Every vocabulary entry is a non-empty string. -/
theorem mem_vocab_ne_nil (v : Str) (l : List Str)
    (h : v ∈ sortStrs ((l.filter (fun u => !u.isEmpty)).dedup)) : v ≠ [] := by
  have h2 := List.mem_dedup.mp ((mem_sortStrs v _).mp h)
  have h3 := List.of_mem_filter h2
  intro he
  subst he
  simp at h3

theorem isEmpty_false_of_ne {l : Str} (h : l ≠ []) : l.isEmpty = false := by
  cases l with
  | nil => exact absurd rfl h
  | cons _ _ => rfl

/-- C4: at the similarity stage (alias and exact passes missed), each field
    accepts the best-scoring vocabulary entry exactly when its score meets
    the field cutoff, 0.78 for university, 0.83 for department, 0.90 for
    program and 0.80 for campus parts, and otherwise returns the trimmed
    original input, never an absent value. -/
theorem c4_fuzzy_cutoffs (R : List MeritRow) (txt : Str) (hne : txt ≠ []) :
    ((∀ u ∈ UNIS R, lowerS u ≠ lowerS (stripS txt)) →
      (fuzzy_pick txt (UNIS R) (mkRat 78 100) = none →
        norm_uni R txt = some (stripS txt)) ∧
      (∀ v, fuzzy_pick txt (UNIS R) (mkRat 78 100) = some v → v ≠ [] →
        norm_uni R txt = some v)) ∧
    (alookup dept_aliases (lowerS (stripS txt)) = none →
      (∀ d ∈ DEPTS R, lowerS d ≠ lowerS (stripS txt)) →
      (fuzzy_pick txt (DEPTS R) (mkRat 83 100) = none →
        norm_dept R txt = some (stripS txt)) ∧
      (∀ v, fuzzy_pick txt (DEPTS R) (mkRat 83 100) = some v → v ≠ [] →
        norm_dept R txt = some v)) ∧
    (alookup prog_aliases (progKey txt) = none →
      (fuzzy_pick txt (PROGS R) (mkRat 90 100) = none →
        norm_prog R txt = some (stripS txt)) ∧
      (∀ v, fuzzy_pick txt (PROGS R) (mkRat 90 100) = some v → v ≠ [] →
        norm_prog R txt = some v)) ∧
    (alookup campus_aliases (lowerS (stripS txt)) = none →
      (fuzzy_pick (stripS txt) (CAMPS R) (mkRat 80 100) = none →
        normCampusPart R (stripS txt) = stripS txt) ∧
      (∀ v, fuzzy_pick (stripS txt) (CAMPS R) (mkRat 80 100) = some v → v ≠ [] →
        normCampusPart R (stripS txt) = v)) ∧
    (∀ (opts : List Str) (cutoff : ℚ) (v : Str),
      fuzzy_pick txt opts cutoff = some v →
        v ∈ opts ∧ cutoff ≤ ratio txt v ∧ ∀ o ∈ opts, ratio txt o ≤ ratio txt v) ∧
    (∀ (opts : List Str) (cutoff : ℚ), 0 < cutoff →
      fuzzy_pick txt opts cutoff = none → ∀ o ∈ opts, ratio txt o < cutoff) ∧
    (norm_uni R txt ≠ none ∧ norm_dept R txt ≠ none ∧ norm_prog R txt ≠ none) := by
  have hif : ¬(txt.isEmpty = true) := by
    rw [isEmpty_false_of_ne hne]
    simp
  refine ⟨?_, ?_, ?_, ?_, ?_, ?_, ?_, ?_, ?_⟩
  · intro hex
    have hfind : (UNIS R).find? (fun u => lowerS u == lowerS (stripS txt)) =
        none := by
      rw [List.find?_eq_none]
      intro u hu
      simp only [beq_iff_eq]
      exact hex u hu
    constructor
    · intro hfz
      unfold norm_uni
      rw [if_neg hif, hfind, hfz]
      rfl
    · intro v hfz hv
      unfold norm_uni
      rw [if_neg hif, hfind, hfz]
      cases v with
      | nil => exact absurd rfl hv
      | cons c cs => rfl
  · intro halias hex
    have hfind : (DEPTS R).find? (fun d => lowerS d == lowerS (stripS txt)) =
        none := by
      rw [List.find?_eq_none]
      intro u hu
      simp only [beq_iff_eq]
      exact hex u hu
    constructor
    · intro hfz
      unfold norm_dept
      rw [if_neg hif, halias, hfind, hfz]
      rfl
    · intro v hfz hv
      unfold norm_dept
      rw [if_neg hif, halias, hfind, hfz]
      cases v with
      | nil => exact absurd rfl hv
      | cons c cs => rfl
  · intro halias
    constructor
    · intro hfz
      unfold norm_prog
      rw [if_neg hif, halias, hfz]
      rfl
    · intro v hfz hv
      unfold norm_prog
      rw [if_neg hif, halias, hfz]
      cases v with
      | nil => exact absurd rfl hv
      | cons c cs => rfl
  · intro halias
    constructor
    · intro hfz
      unfold normCampusPart
      rw [halias, hfz]
      rfl
    · intro v hfz hv
      unfold normCampusPart
      rw [halias, hfz]
      cases v with
      | nil => exact absurd rfl hv
      | cons c cs => rfl
  · intro opts cutoff v h
    exact fuzzy_pick_some txt opts cutoff v h
  · intro opts cutoff hcut h
    exact fuzzy_pick_none txt opts cutoff hcut hne h
  · unfold norm_uni
    rw [if_neg hif]
    cases hfind2 : (UNIS R).find? (fun u => lowerS u == lowerS (stripS txt)) with
    | some u => simp
    | none => simp
  · unfold norm_dept
    rw [if_neg hif]
    cases halias2 : alookup dept_aliases (lowerS (stripS txt)) with
    | some u => simp
    | none =>
      cases hfind2 : (DEPTS R).find? (fun d => lowerS d == lowerS (stripS txt)) with
      | some u => simp
      | none => simp
  · unfold norm_prog
    rw [if_neg hif]
    cases halias2 : alookup prog_aliases (progKey txt) with
    | some u => simp
    | none => simp

/-- C4 witness: an input matching no alias, no exact entry and no fuzzy
    entry passes through trimmed for all four field types. -/
theorem c4_fuzzy_cutoffs_witness :
    norm_uni rowsPlain ( "xyzq".toList) = some (stripS ( "xyzq".toList)) ∧
    norm_dept rowsPlain ( "xyzq".toList) = some (stripS ( "xyzq".toList)) ∧
    norm_prog rowsPlain ( "xyzq".toList) = some (stripS ( "xyzq".toList)) ∧
    normCampusPart rowsPlain (stripS ( "xyzq".toList)) =
      stripS ( "xyzq".toList) := by
  have h := c4_fuzzy_cutoffs rowsPlain ( "xyzq".toList) (by decide)
  refine ⟨?_, ?_, ?_, ?_⟩
  · exact (h.1 (by decide)).1 (by decide)
  · exact (h.2.1 (by decide) (by decide)).1 (by decide)
  · exact (h.2.2.1 (by decide)).1 (by decide)
  · exact (h.2.2.2.1 (by decide)).1 (by decide)

/-- C5 counterexample: strings verbatim in a vocabulary are not returned
    unchanged when their normalized form is an alias key.  With program
    vocabulary [MSc] and department vocabulary [Math], norm_prog maps MSc to
    MS and norm_dept maps Math to Mathematics; moreover norm_prog has no
    exact vocabulary pass at all, against the claimed mechanism. -/
theorem c5_vocab_exact_counterexample :
    ( "MSc".toList) ∈ PROGS rowsIba ∧
    norm_prog rowsIba ( "MSc".toList) = some ( "MS".toList) ∧
    some ( "MS".toList) ≠ some ( "MSc".toList) ∧
    ( "Math".toList) ∈ DEPTS rowsIba ∧
    norm_dept rowsIba ( "Math".toList) = some ( "Mathematics".toList) ∧
    some ( "Mathematics".toList) ≠ some ( "Math".toList) := by
  refine ⟨by decide, by decide, by decide, by decide, by decide, by decide⟩

/-- C5 amended: a vocabulary string whose normalized key misses the alias
    table and which is alone in its case class is returned exactly, from any
    letter case of the (trimmed) input: university and department reach it
    through the exact case-insensitive pass, program and campus (which have
    no exact pass) through the fuzzy pass, where the entry scores 1. -/
theorem c5_vocab_exact_amended (R : List MeritRow) (v w : Str)
    (hlow : lowerS w = lowerS v) (hstrip : stripS w = w) (hne : w ≠ []) :
    (v ∈ UNIS R → (∀ u ∈ UNIS R, lowerS u = lowerS v → u = v) →
      norm_uni R w = some v) ∧
    (v ∈ DEPTS R → (∀ u ∈ DEPTS R, lowerS u = lowerS v → u = v) →
      alookup dept_aliases (lowerS w) = none →
      norm_dept R w = some v) ∧
    (v ∈ PROGS R → (∀ u ∈ PROGS R, lowerS u = lowerS v → u = v) →
      alookup prog_aliases (progKey w) = none →
      norm_prog R w = some v) ∧
    (v ∈ CAMPS R → (∀ u ∈ CAMPS R, lowerS u = lowerS v → u = v) →
      alookup campus_aliases (lowerS w) = none →
      normCampusPart R w = v) := by
  have hif : ¬(w.isEmpty = true) := by
    rw [isEmpty_false_of_ne hne]
    simp
  have hwlen : w.length ≠ 0 := fun h0 => hne (List.length_eq_zero.mp h0)
  have huniqratio : ∀ (opts : List Str),
      (∀ u ∈ opts, lowerS u = lowerS v → u = v) →
      ∀ o ∈ opts, ratio w o = 1 → o = v := by
    intro opts huniq o ho h1
    by_cases hlo : lowerS w = lowerS o
    · exact huniq o ho (hlo.symm.trans hlow)
    · exfalso
      have hnz : (lowerS w).length + (lowerS o).length ≠ 0 := by
        have he : (lowerS w).length = w.length := List.length_map _ _
        omega
      exact absurd h1 (ne_of_lt (ratio_lt_one w o hlo hnz))
  have hfindeq : ∀ (opts : List Str), v ∈ opts →
      (∀ u ∈ opts, lowerS u = lowerS v → u = v) →
      opts.find? (fun u => lowerS u == lowerS w) = some v := by
    intro opts hv huniq
    apply find?_eq_of_unique _ opts v hv
    · simp only [beq_iff_eq]
      exact hlow.symm
    · intro u hu hpu
      simp only [beq_iff_eq] at hpu
      exact huniq u hu (hpu.trans hlow)
  refine ⟨?_, ?_, ?_, ?_⟩
  · intro hv huniq
    unfold norm_uni
    rw [if_neg hif, hstrip, hfindeq (UNIS R) hv huniq]
  · intro hv huniq halias
    unfold norm_dept
    rw [if_neg hif, hstrip, halias, hfindeq (DEPTS R) hv huniq]
  · intro hv huniq halias
    have hfz : fuzzy_pick w (PROGS R) (mkRat 90 100) = some v :=
      fuzzy_pick_first_exact w (PROGS R) _ v hne hv (ratio_self w v hlow)
        (huniqratio (PROGS R) huniq) (by decide)
    unfold norm_prog
    rw [if_neg hif, halias, hfz]
    have hvne : v ≠ [] := mem_vocab_ne_nil v _ hv
    cases v with
    | nil => exact absurd rfl hvne
    | cons c cs => rfl
  · intro hv huniq halias
    have hfz : fuzzy_pick w (CAMPS R) (mkRat 80 100) = some v :=
      fuzzy_pick_first_exact w (CAMPS R) _ v hne hv (ratio_self w v hlow)
        (huniqratio (CAMPS R) huniq) (by decide)
    unfold normCampusPart
    rw [halias, hfz]
    have hvne : v ≠ [] := mem_vocab_ne_nil v _ hv
    cases v with
    | nil => exact absurd rfl hvne
    | cons c cs => rfl

/-- C5 witness: concrete vocabulary entries free of alias keys come back
    exactly, from different letter cases, for all four field types. -/
theorem c5_vocab_exact_amended_witness :
    norm_uni rowsPlain ( "nust".toList) = some ( "NUST".toList) ∧
    norm_dept rowsPlain ( "statistics".toList) = some ( "Statistics".toList) ∧
    norm_prog rowsPlain ( "bBa".toList) = some ( "BBA".toList) ∧
    normCampusPart rowsPlain ( "GWADAR".toList) = ( "Gwadar".toList) := by
  refine ⟨?_, ?_, ?_, ?_⟩
  · exact (c5_vocab_exact_amended rowsPlain ( "NUST".toList) ( "nust".toList)
      (by decide) (by decide) (by decide)).1 (by decide) (by decide)
  · exact (c5_vocab_exact_amended rowsPlain ( "Statistics".toList)
      ( "statistics".toList) (by decide) (by decide) (by decide)).2.1
      (by decide) (by decide) (by decide)
  · exact (c5_vocab_exact_amended rowsPlain ( "BBA".toList) ( "bBa".toList)
      (by decide) (by decide) (by decide)).2.2.1 (by decide) (by decide)
      (by decide)
  · exact (c5_vocab_exact_amended rowsPlain ( "Gwadar".toList)
      ( "GWADAR".toList) (by decide) (by decide) (by decide)).2.2.2
      (by decide) (by decide) (by decide)

/-- Components of basicOk. -/
theorem basicOk_spec (c : Char) (h : basicOk c = true) :
    isWs c = false ∧ (c == ',') = false ∧ (c == '&') = false := by
  simp only [basicOk, Bool.and_eq_true, Bool.not_eq_true', bne_iff_ne, ne_eq] at h
  exact ⟨h.1.1, by simpa using h.1.2, by simpa using h.2⟩

/-- Components of goodName. -/
theorem goodName_spec (l : Str) (h : goodName l = true) :
    l.isEmpty = false ∧ l.all basicOk = true ∧ hasAnd l = false := by
  simp only [goodName, Bool.and_eq_true, Bool.not_eq_true'] at h
  exact ⟨h.1.1, h.1.2, h.2⟩

/-- Dropping the head preserves freedom from the word and. -/
theorem hasAnd_tail (x : Char) (l : Str) (h : hasAnd (x :: l) = false) :
    hasAnd l = false := by
  cases l with
  | nil => rfl
  | cons b l2 =>
    cases l2 with
    | nil => rfl
    | cons c l3 =>
      have h2 : (check3 x b c || hasAnd (b :: c :: l3)) = false := h
      exact (Bool.or_eq_false_iff.mp h2).2

/-- Appending two characters that cannot stand inside the word and at its
    second or third position preserves freedom from the word and. -/
theorem hasAnd_append_two (A : Str) (x y : Char) (hA : hasAnd A = false)
    (hn : (x.toLower == 'n') = false) (hd : (x.toLower == 'd') = false) :
    hasAnd (A ++ [x, y]) = false := by
  induction A with
  | nil => rfl
  | cons a A2 ih =>
    cases A2 with
    | nil =>
      show hasAnd [a, x, y] = false
      have hc : check3 a x y = false := by
        simp only [check3, hn, Bool.and_false, Bool.false_and]
      show (check3 a x y || hasAnd [x, y]) = false
      rw [hc]
      rfl
    | cons b A3 =>
      cases A3 with
      | nil =>
        show hasAnd [a, b, x, y] = false
        have hc1 : check3 a b x = false := by
          simp only [check3, hd, Bool.and_false]
        have hc2 : check3 b x y = false := by
          simp only [check3, hn, Bool.and_false, Bool.false_and]
        show (check3 a b x || (check3 b x y || hasAnd [x, y])) = false
        rw [hc1, hc2]
        rfl
      | cons c A4 =>
        have h2 : (check3 a b c || hasAnd (b :: c :: A4)) = false := hA
        have hrest : hasAnd ((b :: c :: A4) ++ [x, y]) = false :=
          ih (Bool.or_eq_false_iff.mp h2).2
        simp only [List.cons_append] at hrest
        show (check3 a b c || hasAnd (b :: c :: (A4 ++ [x, y]))) = false
        rw [(Bool.or_eq_false_iff.mp h2).1, hrest]
        rfl

/-- Dropping leading whitespace is the identity on a whitespace-free list. -/
theorem dropWhile_ws_id (l : Str) (h : ∀ c ∈ l, isWs c = false) :
    l.dropWhile isWs = l := by
  cases l with
  | nil => rfl
  | cons c r =>
    rw [List.dropWhile_cons, h c (List.mem_cons_self c r)]
    simp

/-- Stripping is the identity on a whitespace-free list. -/
theorem stripS_eq_self (l : Str) (h : ∀ c ∈ l, isWs c = false) :
    stripS l = l := by
  have h1 : l.dropWhile isWs = l := dropWhile_ws_id l h
  rw [stripS, h1]
  cases hr : l.reverse with
  | nil =>
    rw [List.reverse_eq_nil_iff] at hr
    subst hr
    rfl
  | cons d t =>
    have hd : isWs d = false := by
      refine h d ?_
      rw [← List.mem_reverse, hr]
      exact List.mem_cons_self d t
    rw [List.dropWhile_cons, hd]
    simp only [Bool.false_eq_true, if_false]
    rw [← hr, List.reverse_reverse]

/-- The in-word test of the separator pattern fails at a position whose
    three-character window is covered by a list free of the word and. -/
theorem andTest_false (a : Char) (u tl : Str)
    (hw : hasAnd (a :: (u ++ tl.take 2)) = false) :
    andTest a (u ++ tl) = false := by
  unfold andTest
  cases u with
  | nil =>
    cases tl with
    | nil => rfl
    | cons t1 r =>
      cases r with
      | nil => rfl
      | cons t2 r2 =>
        have h1 : (check3 a t1 t2 || hasAnd [t1, t2]) = false := hw
        exact (Bool.or_eq_false_iff.mp h1).1
  | cons y u2 =>
    cases u2 with
    | nil =>
      cases tl with
      | nil => rfl
      | cons t1 r =>
        have h1 : (check3 a y t1 || hasAnd (y :: t1 :: List.take 1 r)) = false := hw
        exact (Bool.or_eq_false_iff.mp h1).1
    | cons z u3 =>
      have h1 : (check3 a y z || hasAnd (y :: z :: (u3 ++ tl.take 2))) = false := hw
      have h2 := (Bool.or_eq_false_iff.mp h1).1
      simp only [List.cons_append]
      exact h2

/-- The separator pattern does not match at a head character that is not
    whitespace, comma or ampersand when the and test also fails. -/
theorem sepMatch_cons_none (a : Char) (t : Str) (h1 : isWs a = false)
    (h2 : (a == ',') = false) (h3 : (a == '&') = false)
    (h4 : andTest a t = false) :
    sepMatch (a :: t) = none := by
  unfold sepMatch
  rw [List.dropWhile_cons, h1]
  simp only [Bool.false_eq_true, if_false]
  rw [h2]
  simp only [Bool.false_eq_true, if_false]
  unfold andTest at h4
  cases t with
  | nil => simp only [h3, Bool.false_eq_true, if_false]
  | cons y t2 =>
    cases t2 with
    | nil => simp only [h3, Bool.false_eq_true, if_false]
    | cons z r =>
      have hc : check3 a y z = false := h4
      simp only [hc, h3, Bool.false_eq_true, if_false]

/-- The split scan walks through a separator-free prefix, moving it onto the
    accumulator one character at a time. -/
theorem splitSepAux_skip (f : Nat) (tail : Str) :
    ∀ (A : Str) (acc : Str), A.all basicOk = true →
      hasAnd (A ++ tail.take 2) = false →
      splitSepAux (A.length + f) (A ++ tail) acc =
        splitSepAux f tail (A.reverse ++ acc) := by
  intro A
  induction A with
  | nil =>
    intro acc _ _
    simp only [List.length_nil, Nat.zero_add, List.nil_append, List.reverse_nil]
  | cons a A2 ih =>
    intro acc hall hw
    simp only [List.all_cons, Bool.and_eq_true] at hall
    have hba := basicOk_spec a hall.1
    simp only [List.cons_append] at hw
    have hw2 : hasAnd (A2 ++ tail.take 2) = false := hasAnd_tail a _ hw
    have hsm : sepMatch (a :: (A2 ++ tail)) = none :=
      sepMatch_cons_none a _ hba.1 hba.2.1 hba.2.2 (andTest_false a A2 tail hw)
    have hlen : (a :: A2).length + f = (A2.length + f) + 1 := by
      simp only [List.length_cons]
      omega
    rw [hlen]
    simp only [List.cons_append, splitSepAux, List.append_eq]
    rw [hsm]
    show splitSepAux (A2.length + f) (A2 ++ tail) (a :: acc) =
      splitSepAux f tail ((a :: A2).reverse ++ acc)
    rw [ih (a :: acc) hall.2 hw2]
    simp only [List.reverse_cons, List.append_assoc, List.singleton_append]

/-- The split scan on a separator-free remainder yields one final part. -/
theorem splitSepAux_last :
    ∀ (B : Str) (g : Nat) (acc : Str), B.all basicOk = true →
      hasAnd B = false → B.length ≤ g →
      splitSepAux g B acc = [acc.reverse ++ B] := by
  intro B
  induction B with
  | nil =>
    intro g acc _ _ _
    cases g with
    | zero => simp [splitSepAux]
    | succ g2 => simp [splitSepAux]
  | cons b B2 ih =>
    intro g acc hall hw hlen
    cases g with
    | zero =>
      exact absurd hlen (by simp)
    | succ g2 =>
      simp only [List.all_cons, Bool.and_eq_true] at hall
      have hba := basicOk_spec b hall.1
      have hx : hasAnd (b :: (B2 ++ List.take 2 ([] : Str))) = false := by
        simpa using hw
      have h4 : andTest b B2 = false := by
        have h5 := andTest_false b B2 [] hx
        simpa using h5
      have hsm : sepMatch (b :: B2) = none :=
        sepMatch_cons_none b B2 hba.1 hba.2.1 hba.2.2 h4
      simp only [splitSepAux]
      rw [hsm]
      show splitSepAux g2 B2 (b :: acc) = [acc.reverse ++ (b :: B2)]
      rw [ih g2 (b :: acc) hall.2 (hasAnd_tail b B2 hw)
        (by simp only [List.length_cons] at hlen; omega)]
      simp only [List.reverse_cons, List.append_assoc, List.singleton_append]

/-- The remainder of a separator match never starts with whitespace when the
    following part is a good name. -/
theorem dropWhile_ws_good (B : Str) (hall : B.all basicOk = true)
    (hne : B.isEmpty = false) : B.dropWhile isWs = B := by
  cases B with
  | nil => exact absurd hne (by simp)
  | cons b t =>
    simp only [List.all_cons, Bool.and_eq_true] at hall
    rw [List.dropWhile_cons, (basicOk_spec b hall.1).1]
    simp

/-- The separator pattern consumes a comma and space before a good name. -/
theorem sepMatch_comma (B : Str) (hall : B.all basicOk = true)
    (hne : B.isEmpty = false) :
    sepMatch (',' :: ' ' :: B) = some B := by
  unfold sepMatch
  rw [List.dropWhile_cons]
  simp only [show isWs ',' = false from rfl, Bool.false_eq_true, if_false]
  simp only [show (',' == ',') = true from rfl, if_true]
  rw [List.dropWhile_cons]
  simp only [show isWs ' ' = true from rfl, if_true]
  rw [dropWhile_ws_good B hall hne]

/-- The separator pattern consumes the word and with spaces before a good
    name. -/
theorem sepMatch_and (B : Str) (hall : B.all basicOk = true)
    (hne : B.isEmpty = false) :
    sepMatch (' ' :: 'a' :: 'n' :: 'd' :: ' ' :: B) = some B := by
  unfold sepMatch
  rw [List.dropWhile_cons]
  simp only [show isWs ' ' = true from rfl, if_true]
  rw [List.dropWhile_cons]
  simp only [show isWs 'a' = false from rfl, Bool.false_eq_true, if_false]
  simp only [show ('a' == ',') = false from rfl, Bool.false_eq_true, if_false]
  simp only [show check3 'a' 'n' 'd' = true from rfl, if_true]
  show some (List.dropWhile isWs (' ' :: B)) = some B
  rw [List.dropWhile_cons]
  simp only [show isWs ' ' = true from rfl, if_true]
  rw [dropWhile_ws_good B hall hne]

/-- The separator pattern consumes an ampersand with spaces before a good
    name. -/
theorem sepMatch_amp (B : Str) (hall : B.all basicOk = true)
    (hne : B.isEmpty = false) :
    sepMatch (' ' :: '&' :: ' ' :: B) = some B := by
  unfold sepMatch
  rw [List.dropWhile_cons]
  simp only [show isWs ' ' = true from rfl, if_true]
  rw [List.dropWhile_cons]
  simp only [show isWs '&' = false from rfl, Bool.false_eq_true, if_false]
  simp only [show ('&' == ',') = false from rfl, Bool.false_eq_true, if_false]
  have hand : (match (' ' :: B : Str) with
      | y :: z :: _ => check3 '&' y z
      | _ => false) = false := by
    cases B with
    | nil => rfl
    | cons b t => rfl
  rw [hand]
  simp only [Bool.false_eq_true, if_false]
  simp only [show ('&' == '&') = true from rfl, if_true]
  rw [List.dropWhile_cons]
  simp only [show isWs ' ' = true from rfl, if_true]
  rw [dropWhile_ws_good B hall hne]

/-- Splitting a string made of two good names around one separator match
    yields exactly the two names. -/
theorem splitSep_two (A B : Str) (s0 : Char) (s1 : Str)
    (hgA : goodName A = true) (hgB : goodName B = true)
    (hsep : sepMatch (s0 :: (s1 ++ B)) = some B)
    (hw : hasAnd (A ++ (s0 :: (s1 ++ B)).take 2) = false) :
    splitSep (A ++ (s0 :: (s1 ++ B))) = [A, B] := by
  obtain ⟨hAne, hAall, hAand⟩ := goodName_spec A hgA
  obtain ⟨hBne, hBall, hBand⟩ := goodName_spec B hgB
  unfold splitSep
  have hflen : (A ++ (s0 :: (s1 ++ B))).length + 1
      = A.length + (s1.length + B.length + 2) := by
    simp only [List.length_append, List.length_cons]
    omega
  rw [hflen]
  rw [splitSepAux_skip (s1.length + B.length + 2) (s0 :: (s1 ++ B)) A [] hAall hw]
  rw [show s1.length + B.length + 2 = (s1.length + B.length + 1) + 1 from rfl]
  simp only [splitSepAux, List.append_eq]
  rw [hsep]
  show ((A.reverse ++ []).reverse) :: splitSepAux (s1.length + B.length + 1) B []
      = [A, B]
  rw [splitSepAux_last B (s1.length + B.length + 1) [] hBall hBand (by omega)]
  simp

/-- Good names contain no whitespace. -/
theorem goodName_no_ws (l : Str) (h : l.all basicOk = true) :
    ∀ c ∈ l, isWs c = false := by
  intro c hc
  exact (basicOk_spec c (List.all_eq_true.mp h c hc)).1

/-- Case-insensitive deduplication keeps two case-distinct entries. -/
theorem dedupLower_two (A B : Str) (hAB : lowerS A ≠ lowerS B) :
    dedupLower [A, B] = [A, B] := by
  unfold dedupLower
  rw [show dedupLowerAux [] [A, B]
      = if lowerS A ∈ ([] : List Str) then dedupLowerAux [] [B]
        else A :: dedupLowerAux [lowerS A] [B] from rfl]
  rw [if_neg (List.not_mem_nil _)]
  rw [show dedupLowerAux [lowerS A] [B]
      = if lowerS B ∈ [lowerS A] then dedupLowerAux [lowerS A] []
        else B :: dedupLowerAux [lowerS B, lowerS A] [] from rfl]
  rw [if_neg (fun h => hAB (List.mem_singleton.mp h).symm)]
  rfl

/-- Joining two parts with a comma and space. -/
theorem joinCommaSpace_two (A B : Str) :
    joinCommaSpace [A, B] = A ++ ( ", ".toList) ++ B := by
  simp [joinCommaSpace, List.intercalate, List.intersperse, List.append_assoc]

/-- When splitting yields two good, self-normalizing, case-distinct parts,
    campus normalization rebuilds them joined by a comma and space. -/
theorem norm_campus_parts (R : List MeritRow) (A B txt : Str)
    (hsplit : splitSep txt = [A, B]) (htxt : txt.isEmpty = false)
    (hgA : goodName A = true) (hgB : goodName B = true)
    (hAB : lowerS A ≠ lowerS B)
    (hsA : normCampusPart R A = A) (hsB : normCampusPart R B = B) :
    norm_campus R txt = A ++ ( ", ".toList) ++ B := by
  obtain ⟨hAne, hAall, _⟩ := goodName_spec A hgA
  obtain ⟨hBne, hBall, _⟩ := goodName_spec B hgB
  have hstA : stripS A = A := stripS_eq_self A (goodName_no_ws A hAall)
  have hstB : stripS B = B := stripS_eq_self B (goodName_no_ws B hBall)
  unfold norm_campus
  simp only [htxt, Bool.false_eq_true, if_false]
  rw [hsplit]
  simp only [List.filterMap_cons, List.filterMap_nil, hstA, hstB, hAne, hBne,
    Bool.false_eq_true, if_false]
  rw [hsA, hsB]
  rw [dedupLower_two A B hAB]
  exact joinCommaSpace_two A B

/-- C8 counterexample: Gandhara, Lahore is an already-normalized two-campus
    string (both parts are vocabulary campuses that normalize to themselves),
    yet norm_campus returns G, hara, Lahore, because the separator pattern
    matches the letters of and inside the name Gandhara; idempotence fails. -/
theorem c8_campus_idem_counterexample :
    ( "Gandhara".toList) ∈ CAMPS rowsGandhara ∧
    ( "Lahore".toList) ∈ CAMPS rowsGandhara ∧
    normCampusPart rowsGandhara ( "Gandhara".toList) = ( "Gandhara".toList) ∧
    normCampusPart rowsGandhara ( "Lahore".toList) = ( "Lahore".toList) ∧
    splitSep ( "Gandhara, Lahore".toList)
      = [( "G".toList), ( "hara".toList), ( "Lahore".toList)] ∧
    norm_campus rowsGandhara ( "Gandhara, Lahore".toList)
      = ( "G, hara, Lahore".toList) := by
  decide

/-- C8: for two separator-free campus names (non-empty, without whitespace,
    comma, ampersand or the letters of and) that normalize to themselves and
    differ case-insensitively, norm_campus maps the comma, and, ampersand
    joinings all to the same comma-space joining; in particular the
    normalized form A, B is a fixed point and the result is separator
    independent. -/
theorem c8_campus_idem_amended (R : List MeritRow) (A B : Str)
    (hgA : goodName A = true) (hgB : goodName B = true)
    (hAB : lowerS A ≠ lowerS B)
    (hsA : normCampusPart R A = A) (hsB : normCampusPart R B = B) :
    norm_campus R (A ++ ( ", ".toList) ++ B) = A ++ ( ", ".toList) ++ B ∧
    norm_campus R (A ++ ( " and ".toList) ++ B) = A ++ ( ", ".toList) ++ B ∧
    norm_campus R (A ++ ( " & ".toList) ++ B) = A ++ ( ", ".toList) ++ B := by
  have hAne := (goodName_spec A hgA).1
  have hBall := (goodName_spec B hgB).2.1
  have hBne := (goodName_spec B hgB).1
  have hAand := (goodName_spec A hgA).2.2
  refine ⟨?_, ?_, ?_⟩
  · refine norm_campus_parts R A B _ ?_ ?_ hgA hgB hAB hsA hsB
    · rw [List.append_assoc]
      rw [show ( ", ".toList) = (',' :: [' '] : Str) from by decide]
      rw [List.cons_append]
      exact splitSep_two A B ',' [' '] hgA hgB
        (sepMatch_comma B hBall hBne)
        (hasAnd_append_two A ',' ' ' hAand (by decide) (by decide))
    · cases A with
      | nil => exact absurd hAne (by simp)
      | cons a t => rfl
  · refine norm_campus_parts R A B _ ?_ ?_ hgA hgB hAB hsA hsB
    · rw [List.append_assoc]
      rw [show ( " and ".toList) = (' ' :: ['a', 'n', 'd', ' '] : Str) from by decide]
      rw [List.cons_append]
      exact splitSep_two A B ' ' ['a', 'n', 'd', ' '] hgA hgB
        (sepMatch_and B hBall hBne)
        (hasAnd_append_two A ' ' 'a' hAand (by decide) (by decide))
    · cases A with
      | nil => exact absurd hAne (by simp)
      | cons a t => rfl
  · refine norm_campus_parts R A B _ ?_ ?_ hgA hgB hAB hsA hsB
    · rw [List.append_assoc]
      rw [show ( " & ".toList) = (' ' :: ['&', ' '] : Str) from by decide]
      rw [List.cons_append]
      exact splitSep_two A B ' ' ['&', ' '] hgA hgB
        (sepMatch_amp B hBall hBne)
        (hasAnd_append_two A ' ' '&' hAand (by decide) (by decide))
    · cases A with
      | nil => exact absurd hAne (by simp)
      | cons a t => rfl

/-- C8 witness: Islamabad and Karachi, in all three separator styles,
    normalize to the comma-space joining, which is itself a fixed point. -/
theorem c8_campus_idem_amended_witness :
    norm_campus rowsFast (( "Islamabad".toList) ++ ( ", ".toList)
        ++ ( "Karachi".toList))
      = ( "Islamabad".toList) ++ ( ", ".toList) ++ ( "Karachi".toList) ∧
    norm_campus rowsFast (( "Islamabad".toList) ++ ( " and ".toList)
        ++ ( "Karachi".toList))
      = ( "Islamabad".toList) ++ ( ", ".toList) ++ ( "Karachi".toList) ∧
    norm_campus rowsFast (( "Islamabad".toList) ++ ( " & ".toList)
        ++ ( "Karachi".toList))
      = ( "Islamabad".toList) ++ ( ", ".toList) ++ ( "Karachi".toList) :=
  c8_campus_idem_amended rowsFast ( "Islamabad".toList) ( "Karachi".toList)
    (by decide) (by decide) (by decide) (by decide) (by decide)

/-- Every vocabulary entry comes from the underlying record field list. -/
theorem mem_vocab_field (v : Str) (l : List Str)
    (h : v ∈ sortStrs ((l.filter (fun u => !u.isEmpty)).dedup)) : v ∈ l :=
  List.mem_of_mem_filter (List.mem_dedup.mp ((mem_sortStrs v _).mp h))

/-- The extracted program never strips to the empty string when the loaded
    records carry stripped program fields. -/
theorem extract_prog_strip_ne (R : List MeritRow) (msgL : Str)
    (hR : ∀ r ∈ R, stripS r.program = r.program) :
    stripS (extract_prog R msgL) ≠ [] := by
  unfold extract_prog
  cases ha : extract_prog_alias msgL with
  | some p =>
    unfold extract_prog_alias at ha
    obtain ⟨kv, hkv, hfkv⟩ := findSome?_mem _ prog_aliases p ha
    have hp : p = kv.2 := by
      by_cases hw : wordSearch true kv.1 msgL = true
      · rw [if_pos hw] at hfkv
        exact (Option.some.injEq _ _).mp hfkv.symm
      · rw [if_neg hw] at hfkv
        cases hfkv
    have hall : ∀ kv2 ∈ prog_aliases, stripS kv2.2 ≠ [] := by decide
    show stripS p ≠ []
    rw [hp]
    exact hall kv hkv
  | none =>
    cases hs : extract_prog_sub R msgL with
    | some p =>
      unfold extract_prog_sub at hs
      have hmem := List.mem_of_find?_eq_some hs
      have hne : p ≠ [] := mem_vocab_ne_nil p _ hmem
      have hmem2 : p ∈ R.map (fun r => r.program) := mem_vocab_field p _ hmem
      obtain ⟨r, hr, hpr⟩ := List.mem_map.mp hmem2
      show stripS p ≠ []
      rw [← hpr, hR r hr, hpr]
      exact hne
    | none =>
      show stripS ( "BS".toList) ≠ []
      decide

/-- Normalizing a program whose stripped form is non-empty yields a truthy
    value. -/
theorem norm_prog_truthy (R : List MeritRow) (p : Str) (hp : stripS p ≠ []) :
    pyT (norm_prog R p) = true := by
  have hpne : p ≠ [] := by
    intro he
    subst he
    exact hp rfl
  unfold norm_prog
  rw [isEmpty_false_of_ne hpne]
  simp only [Bool.false_eq_true, if_false]
  cases ha : alookup prog_aliases (progKey p) with
  | some v =>
    have hv : v ≠ [] := by
      unfold alookup at ha
      cases hf : prog_aliases.find? (fun kv => kv.1 == progKey p) with
      | none =>
        rw [hf] at ha
        cases ha
      | some kv =>
        rw [hf] at ha
        have hkv : kv.2 = v := by simpa using ha
        have hmem := List.mem_of_find?_eq_some hf
        have hall : ∀ kv2 ∈ prog_aliases, kv2.2 ≠ [] := by decide
        rw [← hkv]
        exact hall kv hmem
    cases v with
    | nil => exact absurd rfl hv
    | cons c cs => rfl
  | none =>
    show pyT (some (pyOrStr (fuzzy_pick p (PROGS R) (mkRat 90 100)) (stripS p)))
      = true
    cases hf : fuzzy_pick p (PROGS R) (mkRat 90 100) with
    | some v =>
      have hv : v ≠ [] := mem_vocab_ne_nil v _ (fuzzy_pick_some p _ _ v hf).1
      cases v with
      | nil => exact absurd rfl hv
      | cons c cs => rfl
    | none =>
      show pyT (some (pyOrStr none (stripS p))) = true
      cases hsp : stripS p with
      | nil => exact absurd hsp hp
      | cons c cs => rfl

/-- The merged program slot: the hint value when truthy, otherwise the
    extractor value (which also covers the case where the extractor is
    skipped, since then the hint program is truthy). -/
theorem merged_prog_eq (R : List MeritRow) (nowY : Int) (hint : Option Hint)
    (msg : Str) :
    (merged_slots R nowY hint msg).prog =
      if pyT (hint_slots nowY msg hint).prog = true
      then (hint_slots nowY msg hint).prog
      else some (cheap_extract R nowY msg).prog := by
  simp only [merged_slots]
  rw [apply_ite (fun s : RawSlots => s.prog)]
  cases hpt : pyT (hint_slots nowY msg hint).prog with
  | false => simp [hpt, pyOr]
  | true => simp [hpt, pyOr]

/-- Under a well-formed hint program field and stripped record fields, the
    merged program slot always strips to a non-empty string. -/
theorem merged_prog_strip_ne (R : List MeritRow) (nowY : Int)
    (hint : Option Hint) (msg : Str)
    (hR : ∀ r ∈ R, stripS r.program = r.program)
    (hhint : ∀ h s, hint = some h → h.program = JField.jstr s →
      stripS s ≠ []) :
    ∃ p, (merged_slots R nowY hint msg).prog = some p ∧ stripS p ≠ [] := by
  rw [merged_prog_eq]
  cases hpt : pyT (hint_slots nowY msg hint).prog with
  | false =>
    simp only [Bool.false_eq_true, if_false]
    exact ⟨_, rfl, extract_prog_strip_ne R (lowerS msg) hR⟩
  | true =>
    simp only [if_true]
    cases hint with
    | none =>
      rw [show (hint_slots nowY msg none).prog = none from rfl] at hpt
      cases hpt
    | some h =>
      cases hp : h.program with
      | absent =>
        have hfh : (hint_slots nowY msg (some h)).prog = some ( "BS".toList) := by
          simp [hint_slots, hp]
        exact ⟨_, hfh, by decide⟩
      | jnull =>
        have hfh : (hint_slots nowY msg (some h)).prog = none := by
          simp [hint_slots, hp]
        rw [hfh] at hpt
        cases hpt
      | jstr s =>
        have hfh : (hint_slots nowY msg (some h)).prog = some s := by
          simp [hint_slots, hp]
        exact ⟨s, hfh, hhint h s rfl hp⟩

/-- A slot record whose program strips non-empty normalizes to a truthy
    program. -/
theorem normed_prog_truthy (R : List MeritRow) (s : RawSlots) (p : Str)
    (hp : s.prog = some p) (hsp : stripS p ≠ []) :
    pyT (normed_slots R s).prog = true := by
  have hpne : p ≠ [] := by
    intro he
    rw [he] at hsp
    exact hsp rfl
  show pyT (if pyT s.prog then norm_prog R (s.prog.getD []) else none) = true
  rw [hp]
  cases p with
  | nil => exact absurd rfl hpne
  | cons c cs =>
    show pyT (if pyT (some (c :: cs)) then norm_prog R (c :: cs) else none) = true
    rw [show pyT (some (c :: cs)) = true from rfl, if_pos rfl]
    exact norm_prog_truthy R (c :: cs) hsp

/-- When the normalized program slot is truthy, no chat reply is a program
    clarification prompt. -/
theorem chat_turn_no_prog_prompt (R : List MeritRow) (nowY : Int)
    (store : Option Ctx) (hint : Option Hint) (msg : Str)
    (hprog : pyT (normed_slots R (merged_slots R nowY hint msg)).prog = true) :
    progPromptB (chat_turn R nowY store hint msg).1 = false := by
  cases hpol : is_policy_question msg with
  | true => simp [chat_turn, hpol, progPromptB]
  | false =>
    simp only [chat_turn, hpol, Bool.false_eq_true, if_false, hprog,
      Bool.not_true, List.append_nil]
    cases hu : pyT (normed_slots R (merged_slots R nowY hint msg)).uni with
    | false => rfl
    | true =>
      cases hd : pyT (normed_slots R (merged_slots R nowY hint msg)).dept with
      | false => rfl
      | true =>
        split
        · rename_i heq
          simp at heq
        · rw [apply_ite (fun p : ChatReply × Option Ctx => p.1),
            apply_ite progPromptB]
          simp [progPromptB]

/-- C9 counterexample: a hint whose program field is a single space is
    truthy, so the extractor BS default is skipped, yet normalization strips
    it to the empty string; the turn reaches the slot-completeness check
    with an empty program and chat answers with the program clarification
    prompt, which the claim calls unreachable. -/
theorem c9_program_prompt_counterexample :
    pyT (some ( " ".toList)) = true ∧
    norm_prog rowsFast ( " ".toList) = some [] ∧
    (chat_turn rowsFast 2025 none (some hintSpaceProgram)
        ( "merit please".toList)).1
      = ChatReply.askProgramFor ( "Computing".toList) ( "FAST".toList)
          [( "BS".toList)] := by
  decide

/-- C9: whenever the loaded records carry stripped program fields (as
    grab_merit_data guarantees) and any hint program string strips to a
    non-empty value, the normalized program slot is truthy on every turn, so
    the missing-slot list never contains program and neither program
    clarification prompt is ever returned. -/
theorem c9_program_prompt_amended (R : List MeritRow) (nowY : Int)
    (store : Option Ctx) (hint : Option Hint) (msg : Str)
    (hR : ∀ r ∈ R, stripS r.program = r.program)
    (hhint : ∀ h s, hint = some h → h.program = JField.jstr s →
      stripS s ≠ []) :
    pyT (normed_slots R (merged_slots R nowY hint msg)).prog = true ∧
    (∀ d u o, (chat_turn R nowY store hint msg).1
        ≠ ChatReply.askProgramFor d u o) ∧
    (chat_turn R nowY store hint msg).1 ≠ ChatReply.askProgram := by
  obtain ⟨p, hp, hsp⟩ := merged_prog_strip_ne R nowY hint msg hR hhint
  have hprog := normed_prog_truthy R _ p hp hsp
  have hnp := chat_turn_no_prog_prompt R nowY store hint msg hprog
  refine ⟨hprog, ?_, ?_⟩
  · intro d u o he
    rw [he] at hnp
    exact Bool.noConfusion hnp
  · intro he
    rw [he] at hnp
    exact Bool.noConfusion hnp

/-- C9 witness: with no hint at all, a vague message still yields a truthy
    program slot and a reply that is not a program prompt. -/
theorem c9_program_prompt_amended_witness :
    pyT (normed_slots rowsFast
        (merged_slots rowsFast 2025 none ( "merit please".toList))).prog
      = true ∧
    (∀ d u o, (chat_turn rowsFast 2025 none none ( "merit please".toList)).1
        ≠ ChatReply.askProgramFor d u o) ∧
    (chat_turn rowsFast 2025 none none ( "merit please".toList)).1
      ≠ ChatReply.askProgram :=
  c9_program_prompt_amended rowsFast 2025 none none ( "merit please".toList)
    (by decide) (by simp)
